import Mathlib

/-!
# custom::BST and custom::set (bst.h, set.h)

A shallow embedding of the pointer-based binary search tree of `bst.h` and of the
`set` adaptor of `set.h`.

* Memory is an explicit heap of `BNode` cells addressed by natural numbers; a C++
  pointer is an `Option Nat` (`none` is `nullptr`).
* Every member function becomes a function that takes the heap (and the `BST`
  object, which is just `root` and `numElements`) and returns the new heap and
  object.  Dereferencing `nullptr` or a deleted node is undefined behaviour in
  C++; here it is the explicit result `Except.error`.
* A parameter of type `BNode * &` is a `Slot`: the `root` member of the tree, or the
  `pLeft` or `pRight` member of a node; the callee reads and writes the slot itself.
* Loops and recursions that chase pointers carry a fuel counter.  The public
  operations start them with one more unit of fuel than the number of cells that
  were ever allocated: a pointer chase over an unchanged heap that runs longer
  than that has revisited a cell and never ends in C++ either.
-/

namespace custom

/-! ## Memory model -/

/-- The ways in which an operation can fail to produce a result. -/
inductive Fault where
  | nullDeref
  | danglingDeref
  | outOfFuel
deriving DecidableEq, Repr

/-- A C++ `BNode *`: `none` is `nullptr`, `some a` is the address `a`. -/
abbrev Ptr := Option Nat

/-- The class `BST<T>::BNode`.  The field `isRed` is never read nor written by any
function of `bst.h` and is left out. -/
structure BNode (α : Type) where
  data : α
  pLeft : Ptr
  pRight : Ptr
  pParent : Ptr
deriving DecidableEq, Repr

/-- The free store: `cells a` is the live node at address `a`, if any, and `next` is
the address that the next `new BNode` returns.  Deleted addresses are not reused. -/
structure Heap (α : Type) where
  cells : Nat → Option (BNode α)
  next : Nat

variable {α : Type}

/-- A heap with no node. -/
def Heap.empty : Heap α := ⟨fun _ => none, 0⟩

/-- Read through a pointer: `*p`. -/
def Heap.read (h : Heap α) (p : Ptr) : Except Fault (BNode α) :=
  match p with
  | none => Except.error Fault.nullDeref
  | some a =>
    match h.cells a with
    | none => Except.error Fault.danglingDeref
    | some n => Except.ok n

/-- Overwrite the cell at address `a`. -/
def Heap.store (h : Heap α) (a : Nat) (n : BNode α) : Heap α :=
  ⟨fun x => if x = a then some n else h.cells x, h.next⟩

/-- Write through a pointer: `p->field = value`, given as the update `f` of the node. -/
def Heap.modify (h : Heap α) (p : Ptr) (f : BNode α → BNode α) : Except Fault (Heap α) :=
  match p with
  | none => Except.error Fault.nullDeref
  | some a =>
    match h.cells a with
    | none => Except.error Fault.danglingDeref
    | some n => Except.ok (h.store a (f n))

/-- The expression `new BNode(t)`: the constructor `BNode(const T & t)` sets the three
links to `nullptr`. -/
def Heap.alloc (h : Heap α) (t : α) : Heap α × Ptr :=
  (⟨fun x => if x = h.next then some ⟨t, none, none, none⟩ else h.cells x, h.next + 1⟩,
   some h.next)

/-- The statement `delete p`.  Deleting `nullptr` does nothing; deleting a node that
is not live is undefined. -/
def Heap.free (h : Heap α) (p : Ptr) : Except Fault (Heap α) :=
  match p with
  | none => Except.ok h
  | some a =>
    match h.cells a with
    | none => Except.error Fault.danglingDeref
    | some _ => Except.ok ⟨fun x => if x = a then none else h.cells x, h.next⟩

/-- The fuel given to a pointer chase that starts on heap `h`. -/
def Heap.fuel (h : Heap α) : Nat := h.next + 1

/-! ## BNode -/

/-- Function `BNode::addLeft(const T & t)`, called on the node `this`. -/
def BNode.addLeft (h : Heap α) (this : Ptr) (t : α) : Except Fault (Heap α) := do
  let (h1, pAdd) := h.alloc t
  let h2 ← h1.modify pAdd (fun n => { n with pParent := this })
  h2.modify this (fun n => { n with pLeft := pAdd })

/-- Function `BNode::addRight(const T & t)`, called on the node `this`. -/
def BNode.addRight (h : Heap α) (this : Ptr) (t : α) : Except Fault (Heap α) := do
  let (h1, pAdd) := h.alloc t
  let h2 ← h1.modify pAdd (fun n => { n with pParent := this })
  h2.modify this (fun n => { n with pRight := pAdd })

/-- Function `BNode::isRightChild`: `pParent && pParent->pRight == this`. -/
def BNode.isRightChild (h : Heap α) (this : Ptr) : Except Fault Bool := do
  let n ← h.read this
  match n.pParent with
  | none => pure false
  | some q => do
    let pn ← h.read (some q)
    pure (decide (pn.pRight = this))

/-- Function `BNode::isLeftChild`: `pParent && pParent->pLeft == this`. -/
def BNode.isLeftChild (h : Heap α) (this : Ptr) : Except Fault Bool := do
  let n ← h.read this
  match n.pParent with
  | none => pure false
  | some q => do
    let pn ← h.read (some q)
    pure (decide (pn.pLeft = this))

/-! ## BST -/

/-- The data members of `BST<T>`.  `numElements` is a `size_t`: `++` is the plain
successor (a count of live nodes stays far below `2 ^ 64`), `--` wraps at zero. -/
structure BST where
  root : Ptr
  numElements : Nat
deriving DecidableEq, Repr

/-- The class `BST<T>::iterator`: a single node pointer. -/
structure iterator where
  pNode : Ptr
deriving DecidableEq, Repr

/-- The default constructor `BST()`. -/
def BST.mk0 : BST := ⟨none, 0⟩

/-- Function `BST::size`. -/
def BST.size (b : BST) : Nat := b.numElements

/-- Function `BST::empty`. -/
def BST.empty (b : BST) : Bool := b.numElements == 0

/-- Function `BST::end`: `iterator(nullptr)`. -/
def BST.endIt : iterator := ⟨none⟩

/-- The statement `numElements--` on a 64-bit `size_t`. -/
def sizeDecr (n : Nat) : Nat := if n = 0 then 2 ^ 64 - 1 else n - 1

section Ordered
variable [LinearOrder α]

/-- Function `BST::_insert`: the recursive descent. -/
def _insert : Nat → Heap α → Ptr → α → Bool → Except Fault (Heap α × Ptr × Bool)
  | 0, _, _, _, _ => Except.error Fault.outOfFuel
  | fuel + 1, h, pNode, t, keepUnique => do
    let n ← h.read pNode
    if keepUnique && decide (t = n.data) then
      pure (h, pNode, false)
    else if t < n.data then
      if n.pLeft.isSome then
        _insert fuel h n.pLeft t keepUnique
      else do
        let h1 ← BNode.addLeft h pNode t
        let n1 ← h1.read pNode
        pure (h1, n1.pLeft, true)
    else
      if n.pRight.isSome then
        _insert fuel h n.pRight t keepUnique
      else do
        let h1 ← BNode.addRight h pNode t
        let n1 ← h1.read pNode
        pure (h1, n1.pRight, true)

/-- Function `BST::insert(const T & t, bool keepUnique)`. -/
def BST.insert (h : Heap α) (b : BST) (t : α) (keepUnique : Bool) :
    Except Fault (Heap α × BST × iterator × Bool) :=
  if b.root.isSome then do
    let (h1, p, inserted) ← _insert h.fuel h b.root t keepUnique
    let b1 : BST := if inserted then { b with numElements := b.numElements + 1 } else b
    pure (h1, b1, ⟨p⟩, inserted)
  else
    let (h1, p) := h.alloc t
    pure (h1, ⟨p, 1⟩, ⟨p⟩, true)

/-- The loop of `BST::find`. -/
def findLoop : Nat → Heap α → Ptr → α → Except Fault iterator
  | 0, _, _, _ => Except.error Fault.outOfFuel
  | fuel + 1, h, p, t =>
    match p with
    | none => pure BST.endIt
    | some a => do
      let n ← h.read (some a)
      if n.data = t then
        pure ⟨some a⟩
      else if t < n.data then
        findLoop fuel h n.pLeft t
      else
        findLoop fuel h n.pRight t

/-- Function `BST::find`. -/
def BST.find (h : Heap α) (b : BST) (t : α) : Except Fault iterator :=
  findLoop h.fuel h b.root t

end Ordered

/-- The loop `while (p->pLeft) p = p->pLeft;` used by `begin`, `operator++` and
`erase`. -/
def leftmost : Nat → Heap α → Ptr → Except Fault Ptr
  | 0, _, _ => Except.error Fault.outOfFuel
  | fuel + 1, h, p => do
    let n ← h.read p
    if n.pLeft.isSome then leftmost fuel h n.pLeft else pure p

/-- Function `BST::begin`. -/
def BST.begin (h : Heap α) (b : BST) : Except Fault iterator :=
  if b.empty then
    pure BST.endIt
  else do
    let p ← leftmost h.fuel h b.root
    pure ⟨p⟩

/-- The loop `while (pNode->pParent && pNode->pParent->pRight == pNode)
pNode = pNode->pParent;` of `operator++`. -/
def climbRight : Nat → Heap α → Ptr → Except Fault Ptr
  | 0, _, _ => Except.error Fault.outOfFuel
  | fuel + 1, h, p => do
    let n ← h.read p
    match n.pParent with
    | none => pure p
    | some q => do
      let pn ← h.read (some q)
      if pn.pRight = p then climbRight fuel h (some q) else pure p

/-- Operator `BST::iterator::operator++` (prefix). -/
def iterator.incr (h : Heap α) (it : iterator) : Except Fault iterator :=
  match it.pNode with
  | none => pure it
  | some a => do
    let n ← h.read (some a)
    if n.pRight.isSome then do
      let p ← leftmost h.fuel h n.pRight
      pure ⟨p⟩
    else do
      let par ← h.read n.pParent
      if par.pLeft = some a then
        pure ⟨n.pParent⟩
      else if par.pRight = some a then do
        let p ← climbRight h.fuel h (some a)
        let m ← h.read p
        pure ⟨m.pParent⟩
      else
        pure it

/-- Apply prefix `++` `k` times. -/
def iterator.incrN (h : Heap α) : Nat → iterator → Except Fault iterator
  | 0, it => pure it
  | k + 1, it => do
    let it1 ← iterator.incr h it
    iterator.incrN h k it1

/-! ### erase -/

/-- Case 1 of `BST::erase` (no children), before the `delete`. -/
def BST.eraseCase1 (h : Heap α) (p : Ptr) : Except Fault (Heap α) := do
  let isR ← BNode.isRightChild h p
  if isR then do
    let n ← h.read p
    h.modify n.pParent (fun c => { c with pRight := none })
  else do
    let isL ← BNode.isLeftChild h p
    if isL then do
      let n ← h.read p
      h.modify n.pParent (fun c => { c with pLeft := none })
    else
      pure h

/-- Case 2a of `BST::erase` (one left child), before the `delete`. -/
def BST.eraseCase2a [DecidableEq α] (h : Heap α) (p : Ptr) : Except Fault (Heap α) := do
  -- it.pNode->pLeft->pParent = it.pNode->pParent;
  let n ← h.read p
  let h1 ← h.modify n.pLeft (fun c => { c with pParent := n.pParent })
  -- if (it.pNode->pParent->pRight->data == it.pNode->data) it.pNode->pRight = it.pNode->pLeft;
  let n1 ← h1.read p
  let par1 ← h1.read n1.pParent
  let pr ← h1.read par1.pRight
  let h2 ← if pr.data = n1.data then h1.modify p (fun c => { c with pRight := n1.pLeft })
           else pure h1
  -- if (it.pNode->pParent->pLeft->data == it.pNode->data) it.pNode->pParent->pLeft = it.pNode->pLeft;
  let n2 ← h2.read p
  let par2 ← h2.read n2.pParent
  let pl ← h2.read par2.pLeft
  if pl.data = n2.data then h2.modify n2.pParent (fun c => { c with pLeft := n2.pLeft })
  else pure h2

/-- Case 2b of `BST::erase` (one right child), before the `delete`. -/
def BST.eraseCase2b [DecidableEq α] (h : Heap α) (p : Ptr) : Except Fault (Heap α) := do
  -- it.pNode->pRight->pParent = it.pNode->pParent;
  let n ← h.read p
  let h1 ← h.modify n.pRight (fun c => { c with pParent := n.pParent })
  -- if (it.pNode->pParent->pRight->data == it.pNode->data) it.pNode->pParent->pRight = it.pNode->pRight;
  let n1 ← h1.read p
  let par1 ← h1.read n1.pParent
  let pr ← h1.read par1.pRight
  let h2 ← if pr.data = n1.data then h1.modify n1.pParent (fun c => { c with pRight := n1.pRight })
           else pure h1
  -- if (it.pNode->pParent->pLeft->data == it.pNode->data) it.pNode->pParent->pLeft = it.pNode->pRight;
  let n2 ← h2.read p
  let par2 ← h2.read n2.pParent
  let pl ← h2.read par2.pLeft
  if pl.data = n2.data then h2.modify n2.pParent (fun c => { c with pLeft := n2.pRight })
  else pure h2

/-- Case 3 of `BST::erase` (two children), before the `delete`. -/
def BST.eraseCase3 (h : Heap α) (p : Ptr) : Except Fault (Heap α) := do
  -- auto itInOrderSuccessor = it.pNode->pRight; while (...->pLeft != nullptr) ...
  let n ← h.read p
  let succ ← leftmost h.fuel h n.pRight
  -- auto inOrderRChild = itInOrderSuccessor->pRight;
  let s0 ← h.read succ
  let inOrderRChild := s0.pRight
  -- it.pNode->pParent->pLeft = itInOrderSuccessor;
  let h1 ← h.modify n.pParent (fun c => { c with pLeft := succ })
  -- itInOrderSuccessor->pRight = it.pNode->pRight;
  let n1 ← h1.read p
  let h2 ← h1.modify succ (fun c => { c with pRight := n1.pRight })
  -- itInOrderSuccessor->pLeft = it.pNode->pLeft;
  let n2 ← h2.read p
  let h3 ← h2.modify succ (fun c => { c with pLeft := n2.pLeft })
  -- itInOrderSuccessor->pRight->pLeft = inOrderRChild;
  let s3 ← h3.read succ
  let h4 ← h3.modify s3.pRight (fun c => { c with pLeft := inOrderRChild })
  -- itInOrderSuccessor->pParent = it.pNode->pParent;
  let n4 ← h4.read p
  let h5 ← h4.modify succ (fun c => { c with pParent := n4.pParent })
  -- itInOrderSuccessor->pRight->pParent = itInOrderSuccessor;
  let s5 ← h5.read succ
  let h6 ← h5.modify s5.pRight (fun c => { c with pParent := succ })
  -- itInOrderSuccessor->pLeft->pParent = itInOrderSuccessor;
  let s6 ← h6.read succ
  let h7 ← h6.modify s6.pLeft (fun c => { c with pParent := succ })
  -- inOrderRChild->pParent = itInOrderSuccessor->pRight;
  let s7 ← h7.read succ
  h7.modify inOrderRChild (fun c => { c with pParent := s7.pRight })

/-- Function `BST::erase(iterator & it)`.  The iterator is passed by reference and is nulled;
the function returns a copy of it. -/
def BST.erase [DecidableEq α] (h : Heap α) (b : BST) (it : iterator) :
    Except Fault (Heap α × BST × iterator) :=
  match it.pNode with
  | none => pure (h, b, it)
  | some a => do
    let n ← h.read (some a)
    let h1 ←
      if n.pRight.isNone && n.pLeft.isNone then BST.eraseCase1 h (some a)
      else if n.pRight.isNone && n.pLeft.isSome then BST.eraseCase2a h (some a)
      else if n.pLeft.isNone && n.pRight.isSome then BST.eraseCase2b h (some a)
      else if n.pLeft.isSome && n.pRight.isSome then BST.eraseCase3 h (some a)
      else pure h
    -- delete it.pNode; it.pNode = nullptr; numElements--;
    let h2 ← h1.free (some a)
    pure (h2, { b with numElements := sizeDecr b.numElements }, ⟨none⟩)

/-! ## set -/

/-- The class `set<T>`: its only data member is the tree `bst`. -/
structure set where
  bst : BST
deriving DecidableEq, Repr

/-- Operator `set::iterator::operator==`: equality of the node pointers. -/
def set.iterEq (a b : iterator) : Bool := decide (a.pNode = b.pNode)

/-- Function `set::size`. -/
def set.size (s : set) : Nat := s.bst.size

/-- Function `set::end`. -/
def set.endIt : iterator := BST.endIt

/-- Function `set::begin`. -/
def set.begin (h : Heap α) (s : set) : Except Fault iterator := s.bst.begin h

section OrderedSet
variable [LinearOrder α]

/-- Function `set::insert(const T & t)`: `bst.insert(t, true)`. -/
def set.insert (h : Heap α) (s : set) (t : α) : Except Fault (Heap α × set × iterator × Bool) := do
  let (h1, b1, it, inserted) ← s.bst.insert h t true
  pure (h1, ⟨b1⟩, it, inserted)

/-- Function `set::find`. -/
def set.find (h : Heap α) (s : set) (t : α) : Except Fault iterator := s.bst.find h t

/-- Function `set::erase(iterator & it)`. -/
def set.eraseIt (h : Heap α) (s : set) (it : iterator) : Except Fault (Heap α × set × iterator) := do
  let (h1, b1, it1) ← s.bst.erase h it
  pure (h1, ⟨b1⟩, it1)

/-- Function `set::erase(const T & t)`: returns the number of elements removed. -/
def set.erase (h : Heap α) (s : set) (t : α) : Except Fault (Heap α × set × Nat) := do
  let it ← set.find h s t
  if set.iterEq it set.endIt then
    pure (h, s, 0)
  else do
    let (h1, s1, _) ← set.eraseIt h s it
    pure (h1, s1, 1)

/-- Insert the values of a list one after the other with `set::insert`. -/
def set.insertAll (h : Heap α) (s : set) : List α → Except Fault (Heap α × set)
  | [] => pure (h, s)
  | t :: ts => do
    let (h1, s1, _, _) ← set.insert h s t
    set.insertAll h1 s1 ts

/-- Apply a list of `BST::insert(t, keepUnique)` calls one after the other. -/
def BST.insertAll (h : Heap α) (b : BST) : List (α × Bool) → Except Fault (Heap α × BST)
  | [] => pure (h, b)
  | (t, k) :: ops => do
    let (h1, b1, _, _) ← b.insert h t k
    BST.insertAll h1 b1 ops

end OrderedSet

/-! ## The abstract tree held by a heap -/

/-- The shape of a tree in memory: every node with its address and its value. -/
inductive Shape (α : Type) where
  | nil : Shape α
  | node (l : Shape α) (a : Nat) (v : α) (r : Shape α) : Shape α
deriving DecidableEq, Repr

/-- The pointer to the root node of a shape. -/
def Shape.ptr : Shape α → Ptr
  | Shape.nil => none
  | Shape.node _ a _ _ => some a

/-- The addresses of the nodes, in in-order. -/
def Shape.addrs : Shape α → List Nat
  | Shape.nil => []
  | Shape.node l a _ r => l.addrs ++ a :: r.addrs

/-- The in-order sequence of the values. -/
def Shape.inorder : Shape α → List α
  | Shape.nil => []
  | Shape.node l _ v r => l.inorder ++ v :: r.inorder

/-- The number of nodes. -/
def Shape.size : Shape α → Nat
  | Shape.nil => 0
  | Shape.node l _ _ r => l.size + 1 + r.size

/-- The heap holds the shape `s` below a node (or tree object) `par`: every node of `s`
is a live cell with the value and the child links of `s`, and its `pParent` is the
node that holds it (back-link consistency). -/
def Rep (h : Heap α) : Ptr → Shape α → Prop
  | _, Shape.nil => True
  | par, Shape.node l a v r =>
    h.cells a = some ⟨v, l.ptr, r.ptr, par⟩ ∧ Rep h (some a) l ∧ Rep h (some a) r

/-- The BST ordering invariant: left subtree values are less than the node value,
right subtree values are greater than or equal to it. -/
def Shape.Ordered [LinearOrder α] : Shape α → Prop
  | Shape.nil => True
  | Shape.node l _ v r =>
    (∀ x ∈ l.inorder, x < v) ∧ (∀ x ∈ r.inorder, v ≤ x) ∧ l.Ordered ∧ r.Ordered

/-- The tree object `b` on heap `h` is the tree `s`: `root` points to it, the nodes are
pairwise distinct allocated cells with consistent back-links (the root has no parent),
and `numElements` counts them. -/
structure WellFormed (h : Heap α) (b : BST) (s : Shape α) : Prop where
  root : b.root = s.ptr
  rep : Rep h none s
  nodup : s.addrs.Nodup
  bound : ∀ a ∈ s.addrs, a < h.next
  count : b.numElements = s.size

/-- The descent of `_insert` on the shape: the new shape, the node the returned
iterator references and the `inserted` flag, when the fresh node gets address `a`. -/
def Shape.insertAt [LinearOrder α] (a : Nat) (t : α) (k : Bool) : Shape α → Shape α × Ptr × Bool
  | Shape.nil => (Shape.node Shape.nil a t Shape.nil, some a, true)
  | Shape.node l p v r =>
    if k && decide (t = v) then (Shape.node l p v r, some p, false)
    else if t < v then
      (Shape.node (Shape.insertAt a t k l).1 p v r, (Shape.insertAt a t k l).2)
    else
      (Shape.node l p v (Shape.insertAt a t k r).1, (Shape.insertAt a t k r).2)

/-- The descent of `find` on the shape. -/
def Shape.lookup [LinearOrder α] (t : α) : Shape α → Ptr
  | Shape.nil => none
  | Shape.node l p v r =>
    if v = t then some p else if t < v then Shape.lookup t l else Shape.lookup t r

/-! ## Concrete trees used to instantiate the theorems -/

/-- The heap after inserting 5, 3, 8 into an empty tree: 5 at address 0, 3 at 1, 8 at 2. -/
def heap538 : Heap Nat :=
  ⟨fun a =>
    if a = 0 then some ⟨5, some 1, some 2, none⟩
    else if a = 1 then some ⟨3, none, none, some 0⟩
    else if a = 2 then some ⟨8, none, none, some 0⟩
    else none, 3⟩

/-- The tree object of `heap538`. -/
def tree538 : BST := ⟨some 0, 3⟩

/-- The shape held by `heap538`. -/
def shape538 : Shape Nat :=
  Shape.node (Shape.node Shape.nil 1 3 Shape.nil) 0 5 (Shape.node Shape.nil 2 8 Shape.nil)

/-- The shape without the subtree rooted at address `a`. -/
def Shape.prune (a : Nat) : Shape α → Shape α
  | Shape.nil => Shape.nil
  | Shape.node l p v r =>
    if p = a then Shape.nil else Shape.node (Shape.prune a l) p v (Shape.prune a r)

/-! ## Clear, copy, move, swap -/

/-- An lvalue of type `BNode *`, as bound to a parameter `BNode * &`: the `root` member of
the tree operated on, or the `pLeft` or `pRight` member of the node at an address. -/
inductive Slot where
  | root
  | left (a : Nat)
  | right (a : Nat)
deriving DecidableEq, Repr

/-- Read the pointer stored in a slot; `root` is the current value of the `root` member. -/
def Slot.get (h : Heap α) (root : Ptr) : Slot → Except Fault Ptr
  | Slot.root => pure root
  | Slot.left a => do
    let n ← h.read (some a)
    pure n.pLeft
  | Slot.right a => do
    let n ← h.read (some a)
    pure n.pRight

/-- Store a pointer in a slot. -/
def Slot.set (h : Heap α) (root : Ptr) (v : Ptr) : Slot → Except Fault (Heap α × Ptr)
  | Slot.root => pure (h, v)
  | Slot.left a => do
    let h1 ← h.modify (some a) (fun n => { n with pLeft := v })
    pure (h1, root)
  | Slot.right a => do
    let h1 ← h.modify (some a) (fun n => { n with pRight := v })
    pure (h1, root)

/-- The lvalue `p->pLeft`. -/
def Slot.leftOf : Ptr → Except Fault Slot
  | none => Except.error Fault.nullDeref
  | some a => pure (Slot.left a)

/-- The lvalue `p->pRight`. -/
def Slot.rightOf : Ptr → Except Fault Slot
  | none => Except.error Fault.nullDeref
  | some a => pure (Slot.right a)

/-- Function `BST::_clear(BNode * & pThis)`. -/
def _clear : Nat → Heap α → Ptr → Slot → Except Fault (Heap α × Ptr)
  | 0, _, _, _ => Except.error Fault.outOfFuel
  | fuel + 1, h, root, pThis => do
    let p ← pThis.get h root
    match p with
    | none => pure (h, root)
    | some _ => do
      -- _clear(pThis->pLeft);
      let sL ← Slot.leftOf p
      let (h1, root1) ← _clear fuel h root sL
      -- _clear(pThis->pRight);
      let p1 ← pThis.get h1 root1
      let sR ← Slot.rightOf p1
      let (h2, root2) ← _clear fuel h1 root1 sR
      -- delete pThis;
      let p2 ← pThis.get h2 root2
      let h3 ← h2.free p2
      -- pThis = nullptr;
      pThis.set h3 root2 none

/-- The part of `BST::_assign` after the value has been written: the two recursive calls
(right, then left; `recur` is `_assign` itself) and the two statements that connect the
children to `pDest`. -/
def assignRest (recur : Heap α → Ptr → Slot → Ptr → Except Fault (Heap α × Ptr))
    (h : Heap α) (root : Ptr) (pDest : Slot) (pSrc : Ptr) : Except Fault (Heap α × Ptr) := do
  -- _assign(pDest->pRight, pSrc->pRight);
  let d1 ← pDest.get h root
  let sR ← Slot.rightOf d1
  let src1 ← h.read pSrc
  let (h1, root1) ← recur h root sR src1.pRight
  -- _assign(pDest->pLeft, pSrc->pLeft);
  let d2 ← pDest.get h1 root1
  let sL ← Slot.leftOf d2
  let src2 ← h1.read pSrc
  let (h2, root2) ← recur h1 root1 sL src2.pLeft
  -- if (pDest->pRight) pDest->pRight->pParent = pDest;
  let d3 ← pDest.get h2 root2
  let n3 ← h2.read d3
  let h3 ← if n3.pRight.isSome then h2.modify n3.pRight (fun c => { c with pParent := d3 })
           else pure h2
  -- if (pDest->pLeft) pDest->pLeft->pParent = pDest;
  let d4 ← pDest.get h3 root2
  let n4 ← h3.read d4
  let h4 ← if n4.pLeft.isSome then h3.modify n4.pLeft (fun c => { c with pParent := d4 })
           else pure h3
  pure (h4, root2)

/-- Function `BST::_assign(BNode * & pDest, const BNode * pSrc)`.  A unit of fuel is used per
level of the source; the call of `_clear` for an absent source node gets the fuel of the
call that makes it. -/
def _assign : Nat → Heap α → Ptr → Slot → Ptr → Except Fault (Heap α × Ptr)
  | 0, _, _, _, _ => Except.error Fault.outOfFuel
  | fuel + 1, h, root, pDest, pSrc =>
    match pSrc with
    | none => _clear (fuel + 1) h root pDest
    | some _ => do
      let d ← pDest.get h root
      match d with
      | none => do
        -- pDest = new BNode(pSrc->data);
        let src ← h.read pSrc
        let (ha, pNew) := h.alloc src.data
        let (hb, rootb) ← pDest.set ha root pNew
        assignRest (_assign fuel) hb rootb pDest pSrc
      | some _ => do
        -- pDest->data = pSrc->data;
        let src ← h.read pSrc
        let hb ← h.modify d (fun n => { n with data := src.data })
        assignRest (_assign fuel) hb root pDest pSrc

/-- Function `BST::clear`. -/
def BST.clear (h : Heap α) (b : BST) : Except Fault (Heap α × BST) := do
  let (h1, root1) ← _clear h.fuel h b.root Slot.root
  pure (h1, ⟨root1, 0⟩)

/-- The copy assignment `BST::operator=(const BST & rhs)`, for `rhs` an object other than
`*this`; it returns the heap and the new `*this`. -/
def BST.assign (h : Heap α) (this rhs : BST) : Except Fault (Heap α × BST) := do
  let (h1, root1) ← _assign h.fuel h this.root Slot.root rhs.root
  pure (h1, ⟨root1, rhs.numElements⟩)

/-- The copy constructor `BST(const BST & rhs)`. -/
def BST.copy (h : Heap α) (rhs : BST) : Except Fault (Heap α × BST) :=
  BST.assign h ⟨none, rhs.numElements⟩ rhs

/-- The library function `std::swap` on two values. -/
def stdSwap {β : Type} (x y : β) : β × β :=
  let tmp := x
  (y, tmp)

/-- Function `BST::swap(BST & rhs)`, for `rhs` an object other than `*this`; it returns the
new `*this` and the new `rhs`. -/
def BST.swap (this rhs : BST) : BST × BST :=
  let (root1, rroot1) := stdSwap this.root rhs.root
  let (num1, rnum1) := stdSwap this.numElements rhs.numElements
  (⟨root1, num1⟩, ⟨rroot1, rnum1⟩)

/-- The move assignment `BST::operator=(BST && rhs)`; it returns the heap, the new `*this`
and the new `rhs`. -/
def BST.moveAssign (h : Heap α) (this rhs : BST) : Except Fault (Heap α × BST × BST) := do
  let (h1, this1) ← BST.clear h this
  let (this2, rhs2) := BST.swap this1 rhs
  pure (h1, this2, rhs2)

/-- The move constructor `BST(BST && rhs)`. -/
def BST.move (h : Heap α) (rhs : BST) : Except Fault (Heap α × BST × BST) :=
  BST.moveAssign h ⟨none, 0⟩ rhs

/-- Operator `BST::iterator::operator==`. -/
def iterator.eq (a b : iterator) : Bool :=
  decide (a.pNode = b.pNode) || decide (a.pNode = none)

/-- Operator `BST::iterator::operator!=`. -/
def iterator.ne (a b : iterator) : Bool :=
  decide (a.pNode ≠ b.pNode)

section MoveInsert
variable [LinearOrder α]

/-- Function `BNode::addLeft(T && t)`, called on the node `this`. -/
def BNode.addLeftMove (h : Heap α) (this : Ptr) (t : α) : Except Fault (Heap α) := do
  let (h1, pAdd) := h.alloc t
  let h2 ← h1.modify pAdd (fun n => { n with pParent := this })
  h2.modify this (fun n => { n with pLeft := pAdd })

/-- Function `BNode::addRight(T && t)`, called on the node `this`. -/
def BNode.addRightMove (h : Heap α) (this : Ptr) (t : α) : Except Fault (Heap α) := do
  let (h1, pAdd) := h.alloc t
  let h2 ← h1.modify pAdd (fun n => { n with pParent := this })
  h2.modify this (fun n => { n with pRight := pAdd })

/-- Function `BST::_insertMove`. -/
def _insertMove : Nat → Heap α → Ptr → α → Bool → Except Fault (Heap α × Ptr × Bool)
  | 0, _, _, _, _ => Except.error Fault.outOfFuel
  | fuel + 1, h, pNode, t, keepUnique => do
    let n ← h.read pNode
    if keepUnique && decide (t = n.data) then
      pure (h, pNode, false)
    else if t < n.data then
      if n.pLeft.isSome then
        _insertMove fuel h n.pLeft t keepUnique
      else do
        let h1 ← BNode.addLeftMove h pNode t
        let n1 ← h1.read pNode
        pure (h1, n1.pLeft, true)
    else
      if n.pRight.isSome then
        _insertMove fuel h n.pRight t keepUnique
      else do
        let h1 ← BNode.addRightMove h pNode t
        let n1 ← h1.read pNode
        pure (h1, n1.pRight, true)

/-- Function `BST::insert(T && t, bool keepUnique)`. -/
def BST.insertMove (h : Heap α) (b : BST) (t : α) (keepUnique : Bool) :
    Except Fault (Heap α × BST × iterator × Bool) := do
  let (h1, p, inserted) ← _insertMove h.fuel h b.root t keepUnique
  let b1 : BST := if inserted then { b with numElements := b.numElements + 1 } else b
  pure (h1, b1, ⟨p⟩, inserted)

/-- The constructor `set(const std::initializer_list<T> & il)`: `bst.insert(element)` for
every element, with the default `keepUnique = false` of `BST::insert`. -/
def set.ofList (h : Heap α) (il : List α) : Except Fault (Heap α × set) := do
  let (h1, b1) ← BST.insertAll h BST.mk0 (il.map fun t => (t, false))
  pure (h1, ⟨b1⟩)

/-- The assignment `set::operator=(const std::initializer_list<T> & il)`. -/
def set.assignList (h : Heap α) (s : set) (il : List α) : Except Fault (Heap α × set) := do
  let (h1, b1) ← BST.clear h s.bst
  let (h2, b2) ← BST.insertAll h1 b1 (il.map fun t => (t, false))
  pure (h2, ⟨b2⟩)

/-- The loop of `set::erase(iterator & itBegin, iterator & itEnd)`; `it != itEnd` is
`set::iterator::operator!=`.  The fuel bounds the number of iterations. -/
def set.eraseRangeLoop : Nat → Heap α → set → iterator → iterator →
    Except Fault (Heap α × set × iterator)
  | 0, _, _, _, _ => Except.error Fault.outOfFuel
  | fuel + 1, h, s, it, itEnd =>
    if it.pNode ≠ itEnd.pNode then do
      let (h1, s1, it1) ← set.eraseIt h s it
      set.eraseRangeLoop fuel h1 s1 it1 itEnd
    else
      pure (h, s, itEnd)

/-- Function `set::erase(iterator & itBegin, iterator & itEnd)`, with at most `fuel`
evaluations of the loop condition. -/
def set.eraseRange (fuel : Nat) (h : Heap α) (s : set) (itBegin itEnd : iterator) :
    Except Fault (Heap α × set × iterator) :=
  set.eraseRangeLoop fuel h s itBegin itEnd

end MoveInsert

/-- The heap after inserting 5, 3 into an empty tree: 5 at address 0, 3 at address 1. -/
def heap53 : Heap Nat :=
  ⟨fun a =>
    if a = 0 then some ⟨5, some 1, none, none⟩
    else if a = 1 then some ⟨3, none, none, some 0⟩
    else none, 2⟩

/-- The tree object of `heap53`. -/
def tree53 : BST := ⟨some 0, 2⟩

/-- The shape held by `heap53`. -/
def shape53 : Shape Nat := Shape.node (Shape.node Shape.nil 1 3 Shape.nil) 0 5 Shape.nil

/-- The address of the node that holds a slot, if the slot is a member of a node. -/
def Slot.node : Slot → Option Nat
  | Slot.root => none
  | Slot.left a => some a
  | Slot.right a => some a

/-- Relation between a state `(h, root)` and a later state `(h1, root1)`: the slot holds
`v` in the later state, and the node that holds the slot is otherwise as in `h`; a slot
in a node leaves `root` alone. -/
def Slot.Stored (h : Heap α) (root : Ptr) (h1 : Heap α) (root1 : Ptr) (v : Ptr) : Slot → Prop
  | Slot.root => root1 = v
  | Slot.left d =>
    root1 = root ∧ ∃ n, h.cells d = some n ∧ h1.cells d = some { n with pLeft := v }
  | Slot.right d =>
    root1 = root ∧ ∃ n, h.cells d = some n ∧ h1.cells d = some { n with pRight := v }

/-- A heap with two trees: the tree 5, 3 at addresses 0, 1 and the tree 7 at address 2. -/
def heapTwo : Heap Nat :=
  ⟨fun a =>
    if a = 0 then some ⟨5, some 1, none, none⟩
    else if a = 1 then some ⟨3, none, none, some 0⟩
    else if a = 2 then some ⟨7, none, none, none⟩
    else none, 3⟩

/-- The tree object of the tree 7 in `heapTwo`. -/
def tree7 : BST := ⟨some 2, 1⟩

/-- The shape of the tree 7 in `heapTwo`. -/
def shape7 : Shape Nat := Shape.node Shape.nil 2 7 Shape.nil

/-- Two shapes have the same form and the same value at every position (the addresses
may differ). -/
def Shape.Same : Shape α → Shape α → Prop
  | Shape.nil, Shape.nil => True
  | Shape.node l _ v r, Shape.node l1 _ v1 r1 => v = v1 ∧ Shape.Same l l1 ∧ Shape.Same r r1
  | _, _ => False

/-- The contract of `_assign` for the source shape `src` (held below `parS`), as a
property of a function `recur` that is given `fuel`: for every destination shape held by
the heap, disjoint from the source, whose root pointer is in the slot, the call returns;
the heap then holds a shape that is the same as the source below the slot, built from
nodes of the old destination and fresh nodes; the slot holds its root; cells outside the
old destination are unchanged. -/
def AssignSpec (recur : Heap α → Ptr → Slot → Ptr → Except Fault (Heap α × Ptr))
    (fuel : Nat) (src : Shape α) (parS : Ptr) : Prop :=
  ∀ (dst : Shape α) (parD : Ptr) (h : Heap α) (root : Ptr) (σ : Slot),
    Rep h parS src → Rep h parD dst → dst.addrs.Nodup →
    (∀ x ∈ src.addrs, x ∉ dst.addrs) → (∀ x ∈ src.addrs, x < h.next) →
    (∀ x ∈ dst.addrs, x < h.next) → σ.get h root = Except.ok dst.ptr →
    (∀ e, σ.node = some e → e ∉ dst.addrs ∧ e ∉ src.addrs ∧ e < h.next) →
    src.size + dst.size + 1 ≤ fuel →
    ∃ h1 root1 d1, recur h root σ src.ptr = Except.ok (h1, root1) ∧ h.next ≤ h1.next ∧
      Rep h1 (if dst.ptr.isSome then parD else none) d1 ∧ Shape.Same src d1 ∧
      d1.addrs.Nodup ∧
      (∀ x ∈ d1.addrs, x ∈ dst.addrs ∨ (h.next ≤ x ∧ x < h1.next)) ∧
      (∀ x, x ∉ dst.addrs → x < h.next → σ.node ≠ some x → h1.cells x = h.cells x) ∧
      σ.Stored h root h1 root1 d1.ptr

/-! ## operator-- -/

/-- The loop `while (pNode->pLeft) pNode = pNode->pRight;` of `operator--`: the test reads
`pLeft`, the step follows `pRight`. -/
def decrLoop : Nat → Heap α → Ptr → Except Fault Ptr
  | 0, _, _ => Except.error Fault.outOfFuel
  | fuel + 1, h, p => do
    let n ← h.read p
    if n.pLeft.isSome then decrLoop fuel h n.pRight else pure p

/-- The loop `while (pNode->pParent && pNode->pParent->pLeft == pNode)
pNode = pNode->pParent;` of `operator--`. -/
def climbLeft : Nat → Heap α → Ptr → Except Fault Ptr
  | 0, _, _ => Except.error Fault.outOfFuel
  | fuel + 1, h, p => do
    let n ← h.read p
    match n.pParent with
    | none => pure p
    | some q => do
      let pn ← h.read (some q)
      if pn.pLeft = p then climbLeft fuel h (some q) else pure p

/-- Operator `BST::iterator::operator--` (prefix). -/
def iterator.decr (h : Heap α) (it : iterator) : Except Fault iterator :=
  match it.pNode with
  | none => pure it
  | some a => do
    let n ← h.read (some a)
    if n.pLeft.isSome then do
      let p ← decrLoop h.fuel h n.pLeft
      pure ⟨p⟩
    else do
      let par ← h.read n.pParent
      if par.pRight = some a then
        pure ⟨n.pParent⟩
      else if par.pLeft = some a then do
        let p ← climbLeft h.fuel h (some a)
        let m ← h.read p
        pure ⟨m.pParent⟩
      else
        pure it

/-- Back-link consistency of the tree with root pointer `root` and the nodes `nodes`: the
root node has no parent, and every present left or right child of a node is a live node
whose `pParent` is the node that holds it. -/
def BackLinked (h : Heap α) (root : Ptr) (nodes : List Nat) : Prop :=
  (∀ r, root = some r → ∃ n, h.cells r = some n ∧ n.pParent = none) ∧
  ∀ a ∈ nodes, ∃ n, h.cells a = some n ∧
    (∀ c, n.pLeft = some c → ∃ m, h.cells c = some m ∧ m.pParent = some a) ∧
    (∀ c, n.pRight = some c → ∃ m, h.cells c = some m ∧ m.pParent = some a)

/-- The heap after inserting 5 into an empty tree. -/
def heap5 : Heap Nat :=
  ⟨fun a => if a = 0 then some ⟨5, none, none, none⟩ else none, 1⟩

/-- The tree object of `heap5`. -/
def tree5 : BST := ⟨some 0, 1⟩

/-! ## Basic facts about heaps and shapes -/

@[simp] theorem ok_bind {ε β γ : Type} (a : β) (f : β → Except ε γ) :
    (Except.ok a >>= f) = f a := rfl

@[simp] theorem error_bind {ε β γ : Type} (e : ε) (f : β → Except ε γ) :
    ((Except.error e : Except ε β) >>= f) = Except.error e := rfl

@[simp] theorem pure_ok {ε β : Type} (a : β) : (pure a : Except ε β) = Except.ok a := rfl

theorem Shape.length_addrs (s : Shape α) : s.addrs.length = s.size := by
  induction s with
  | nil => rfl
  | node l a v r ihl ihr => simp [Shape.addrs, Shape.size, ihl, ihr]; omega

theorem Shape.length_inorder (s : Shape α) : s.inorder.length = s.size := by
  induction s with
  | nil => rfl
  | node l a v r ihl ihr => simp [Shape.inorder, Shape.size, ihl, ihr]; omega

/-- Distinct addresses below the allocation frontier: at most `next` of them. -/
theorem Shape.size_le_next (s : Shape α) (n : Nat) (hnd : s.addrs.Nodup)
    (hb : ∀ a ∈ s.addrs, a < n) : s.size ≤ n := by
  have hsub : s.addrs ⊆ List.range n := fun a ha => List.mem_range.mpr (hb a ha)
  have := (hnd.subperm hsub).length_le
  simpa [Shape.length_addrs] using this

/-- A heap that agrees with `h` on the addresses of `s` holds `s` as well. -/
theorem Rep.frame {h h' : Heap α} : ∀ {s : Shape α} {par : Ptr}, Rep h par s →
    (∀ a ∈ s.addrs, h'.cells a = h.cells a) → Rep h' par s
  | Shape.nil, _, _, _ => trivial
  | Shape.node l a v r, par, hr, hag => by
    obtain ⟨h1, h2, h3⟩ := hr
    refine ⟨?_, Rep.frame h2 ?_, Rep.frame h3 ?_⟩
    · rw [hag a (by simp [Shape.addrs])]; exact h1
    · intro x hx; exact hag x (by simp [Shape.addrs, hx])
    · intro x hx; exact hag x (by simp [Shape.addrs, hx])

/-- Every node of a held shape is a live cell carrying its value. -/
theorem Rep.cell {h : Heap α} : ∀ {s : Shape α} {par : Ptr}, Rep h par s →
    ∀ a ∈ s.addrs, ∃ n, h.cells a = some n
  | Shape.nil, _, _, a, ha => by simp [Shape.addrs] at ha
  | Shape.node l p v r, par, hr, a, ha => by
    obtain ⟨h1, h2, h3⟩ := hr
    simp only [Shape.addrs, List.mem_append, List.mem_cons] at ha
    rcases ha with ha | rfl | ha
    · exact Rep.cell h2 a ha
    · exact ⟨_, h1⟩
    · exact Rep.cell h3 a ha
theorem Shape.ptr_isSome_iff (s : Shape α) : s.ptr.isSome = true ↔ s ≠ Shape.nil := by
  cases s <;> simp [Shape.ptr]

theorem Shape.ptr_eq_none_iff (s : Shape α) : s.ptr = none ↔ s = Shape.nil := by
  cases s <;> simp [Shape.ptr]

theorem Heap.read_some {h : Heap α} {a : Nat} {n : BNode α} (hc : h.cells a = some n) :
    h.read (some a) = Except.ok n := by
  simp [Heap.read, hc]

theorem Heap.modify_some {h : Heap α} {a : Nat} {n : BNode α} (hc : h.cells a = some n)
    (f : BNode α → BNode α) : h.modify (some a) f = Except.ok (h.store a (f n)) := by
  simp [Heap.modify, hc]

@[simp] theorem Heap.store_cells_same (h : Heap α) (a : Nat) (n : BNode α) :
    (h.store a n).cells a = some n := by simp [Heap.store]

theorem Heap.store_cells_other (h : Heap α) {a x : Nat} (n : BNode α) (hx : x ≠ a) :
    (h.store a n).cells x = h.cells x := by simp [Heap.store, hx]

@[simp] theorem Heap.store_next (h : Heap α) (a : Nat) (n : BNode α) :
    (h.store a n).next = h.next := rfl

/-- What `addLeft` does to the heap when `this` is a live node. -/
theorem BNode.addLeft_ok {h : Heap α} {p : Nat} {n : BNode α} (t : α)
    (hc : h.cells p = some n) (hp : p ≠ h.next) :
    ∃ h1, BNode.addLeft h (some p) t = Except.ok h1 ∧ h1.next = h.next + 1 ∧
      h1.cells p = some { n with pLeft := some h.next } ∧
      h1.cells h.next = some ⟨t, none, none, some p⟩ ∧
      ∀ x, x ≠ p → x ≠ h.next → h1.cells x = h.cells x := by
  have hne : h.next ≠ p := fun e => hp e.symm
  refine ⟨⟨fun x => if x = p then some { n with pLeft := some h.next }
      else if x = h.next then some ⟨t, none, none, some p⟩ else h.cells x, h.next + 1⟩,
      ?_, rfl, ?_, ?_, ?_⟩
  · simp [BNode.addLeft, Heap.alloc, Heap.modify, Heap.store, hc, hp]
    funext x
    by_cases h1 : x = p <;> by_cases h2 : x = h.next <;> simp [h1, h2]
  · simp
  · simp [hne]
  · intro x h1 h2; simp [h1, h2]

/-- What `addRight` does to the heap when `this` is a live node. -/
theorem BNode.addRight_ok {h : Heap α} {p : Nat} {n : BNode α} (t : α)
    (hc : h.cells p = some n) (hp : p ≠ h.next) :
    ∃ h1, BNode.addRight h (some p) t = Except.ok h1 ∧ h1.next = h.next + 1 ∧
      h1.cells p = some { n with pRight := some h.next } ∧
      h1.cells h.next = some ⟨t, none, none, some p⟩ ∧
      ∀ x, x ≠ p → x ≠ h.next → h1.cells x = h.cells x := by
  have hne : h.next ≠ p := fun e => hp e.symm
  refine ⟨⟨fun x => if x = p then some { n with pRight := some h.next }
      else if x = h.next then some ⟨t, none, none, some p⟩ else h.cells x, h.next + 1⟩,
      ?_, rfl, ?_, ?_, ?_⟩
  · simp [BNode.addRight, Heap.alloc, Heap.modify, Heap.store, hc, hp]
    funext x
    by_cases h1 : x = p <;> by_cases h2 : x = h.next <;> simp [h1, h2]
  · simp
  · simp [hne]
  · intro x h1 h2; simp [h1, h2]

theorem Shape.insertAt_ptr [LinearOrder α] (a : Nat) (t : α) (k : Bool) (s : Shape α)
    (hs : s ≠ Shape.nil) : (s.insertAt a t k).1.ptr = s.ptr := by
  cases s with
  | nil => exact absurd rfl hs
  | node l p v r =>
    simp only [Shape.insertAt]
    split_ifs <;> rfl

theorem Shape.nodup_node {l r : Shape α} {a : Nat} {v : α}
    (hnd : (Shape.node l a v r).addrs.Nodup) :
    l.addrs.Nodup ∧ r.addrs.Nodup ∧ a ∉ l.addrs ∧ a ∉ r.addrs ∧
      ∀ x, x ∈ l.addrs → x ∉ r.addrs := by
  simp only [Shape.addrs] at hnd
  rw [List.nodup_append] at hnd
  obtain ⟨h1, h2, h3⟩ := hnd
  rw [List.nodup_cons] at h2
  refine ⟨h1, h2.2, ?_, h2.1, ?_⟩
  · intro ha; exact h3 ha (List.mem_cons_self _ _) 
  · intro x hx hx2; exact h3 hx (List.mem_cons_of_mem _ hx2)

/-- The recursive descent `_insert` on a held shape computes `Shape.insertAt`, and the
new heap holds the new shape. -/
theorem _insert_rep [LinearOrder α] (t : α) (k : Bool) :
    ∀ (s : Shape α) (par : Ptr) (fuel : Nat) (h : Heap α), s ≠ Shape.nil → Rep h par s →
      s.addrs.Nodup → (∀ a ∈ s.addrs, a < h.next) → s.size ≤ fuel →
      ∃ h1, _insert fuel h s.ptr t k =
          Except.ok (h1, (s.insertAt h.next t k).2.1, (s.insertAt h.next t k).2.2) ∧
        Rep h1 par (s.insertAt h.next t k).1 ∧
        (∀ x, x ∉ s.addrs → x ≠ h.next → h1.cells x = h.cells x) ∧
        h1.next = (if (s.insertAt h.next t k).2.2 then h.next + 1 else h.next) ∧
        ((s.insertAt h.next t k).2.2 = false → h1 = h) := by
  intro s
  induction s with
  | nil => intro _ _ _ hs; exact absurd rfl hs
  | node l p v r ihl ihr =>
    intro par fuel h _ hrep hnd hb hfuel
    obtain ⟨hc, hl, hr⟩ := hrep
    obtain ⟨hndl, hndr, hpl, hpr, hdis⟩ := Shape.nodup_node hnd
    have hpn : p < h.next := hb p (by simp [Shape.addrs])
    have hbl : ∀ a ∈ l.addrs, a < h.next := fun a ha => hb a (by simp [Shape.addrs, ha])
    have hbr : ∀ a ∈ r.addrs, a < h.next := fun a ha => hb a (by simp [Shape.addrs, ha])
    cases fuel with
    | zero => simp [Shape.size] at hfuel
    | succ fuel =>
      have hfl : l.size ≤ fuel := by simp [Shape.size] at hfuel; omega
      have hfr : r.size ≤ fuel := by simp [Shape.size] at hfuel; omega
      have hptr : (Shape.node l p v r).ptr = some p := rfl
      simp only [hptr, _insert, Heap.read_some hc, ok_bind, Shape.insertAt]
      by_cases h1 : (k && decide (t = v)) = true
      · simp only [if_pos h1]
        exact ⟨h, rfl, ⟨hc, hl, hr⟩, fun _ _ _ => rfl, by simp, fun _ => rfl⟩
      · simp only [if_neg h1]
        by_cases h2 : t < v
        · simp only [if_pos h2]
          by_cases h3 : l = Shape.nil
          · subst h3
            obtain ⟨h1', e1, e2, e3, e4, e5⟩ := BNode.addLeft_ok t hc (Nat.ne_of_lt hpn)
            refine ⟨h1', ?_, ?_, ?_, ?_, ?_⟩
            · simp [Shape.ptr, e1, Heap.read_some e3, Shape.insertAt]
            · simp only [Shape.insertAt]
              refine ⟨by simpa [Shape.ptr] using e3, ⟨by simpa [Shape.ptr] using e4, trivial, trivial⟩, ?_⟩
              refine Rep.frame hr ?_
              intro a ha
              exact e5 a (fun e => hpr (e ▸ ha)) (Nat.ne_of_lt (hbr a ha))
            · intro x hx hx2
              refine e5 x ?_ hx2
              intro e; exact hx (by simp [Shape.addrs, e])
            · simp [Shape.insertAt, e2]
            · simp [Shape.insertAt]
          · have hsome : l.ptr.isSome = true := (Shape.ptr_isSome_iff l).mpr h3
            obtain ⟨h1', e1, e2, e3, e4, e5⟩ := ihl (some p) fuel h h3 hl hndl hbl hfl
            simp only [hsome, if_true]
            refine ⟨h1', e1, ?_, ?_, e4, e5⟩
            · refine ⟨?_, e2, ?_⟩
              · rw [e3 p hpl (Nat.ne_of_lt hpn), hc, Shape.insertAt_ptr _ _ _ _ h3]
              · refine Rep.frame hr ?_
                intro a ha
                exact e3 a (fun e => hdis a e ha) (Nat.ne_of_lt (hbr a ha))
            · intro x hx hx2
              refine e3 x ?_ hx2
              intro e; exact hx (by simp [Shape.addrs, e])
        · simp only [if_neg h2]
          by_cases h3 : r = Shape.nil
          · subst h3
            obtain ⟨h1', e1, e2, e3, e4, e5⟩ := BNode.addRight_ok t hc (Nat.ne_of_lt hpn)
            refine ⟨h1', ?_, ?_, ?_, ?_, ?_⟩
            · simp [Shape.ptr, e1, Heap.read_some e3, Shape.insertAt]
            · simp only [Shape.insertAt]
              refine ⟨by simpa [Shape.ptr] using e3, ?_, ⟨by simpa [Shape.ptr] using e4, trivial, trivial⟩⟩
              refine Rep.frame hl ?_
              intro a ha
              exact e5 a (fun e => hpl (e ▸ ha)) (Nat.ne_of_lt (hbl a ha))
            · intro x hx hx2
              refine e5 x ?_ hx2
              intro e; exact hx (by simp [Shape.addrs, e])
            · simp [Shape.insertAt, e2]
            · simp [Shape.insertAt]
          · have hsome : r.ptr.isSome = true := (Shape.ptr_isSome_iff r).mpr h3
            obtain ⟨h1', e1, e2, e3, e4, e5⟩ := ihr (some p) fuel h h3 hr hndr hbr hfr
            simp only [hsome, if_true]
            refine ⟨h1', e1, ?_, ?_, e4, e5⟩
            · refine ⟨?_, ?_, e2⟩
              · rw [e3 p hpr (Nat.ne_of_lt hpn), hc, Shape.insertAt_ptr _ _ _ _ h3]
              · refine Rep.frame hl ?_
                intro a ha
                exact e3 a (fun e => hdis a ha e) (Nat.ne_of_lt (hbl a ha))
            · intro x hx hx2
              refine e3 x ?_ hx2
              intro e; exact hx (by simp [Shape.addrs, e])

/-! ## Facts about `Shape.insertAt` -/

section InsertAt
variable [LinearOrder α]

theorem Shape.insertAt_size (a : Nat) (t : α) (k : Bool) (s : Shape α) :
    (s.insertAt a t k).1.size = s.size + (if (s.insertAt a t k).2.2 then 1 else 0) := by
  induction s with
  | nil => simp [Shape.insertAt, Shape.size]
  | node l p v r ihl ihr =>
    simp only [Shape.insertAt]
    split_ifs <;> simp_all [Shape.size] <;> omega

theorem Shape.insertAt_false_eq (a : Nat) (t : α) (k : Bool) (s : Shape α)
    (hf : (s.insertAt a t k).2.2 = false) : (s.insertAt a t k).1 = s := by
  induction s with
  | nil => simp [Shape.insertAt] at hf
  | node l p v r ihl ihr =>
    simp only [Shape.insertAt] at hf ⊢
    split_ifs at hf ⊢ <;> simp_all

theorem Shape.insertAt_addrs (a : Nat) (t : α) (k : Bool) (s : Shape α) :
    (s.insertAt a t k).1.addrs.Perm
      (if (s.insertAt a t k).2.2 then a :: s.addrs else s.addrs) := by
  induction s with
  | nil => simp [Shape.insertAt, Shape.addrs]
  | node l p v r ihl ihr =>
    simp only [Shape.insertAt]
    by_cases h1 : (k && decide (t = v)) = true
    · simp only [if_pos h1]; simp
    · simp only [if_neg h1]
      by_cases h2 : t < v
      · simp only [if_pos h2, Shape.addrs]
        by_cases h3 : (Shape.insertAt a t k l).2.2 = true
        · rw [if_pos h3] at ihl ⊢
          exact (ihl.append_right _).trans (by simp)
        · rw [if_neg h3] at ihl ⊢
          exact ihl.append_right _
      · simp only [if_neg h2, Shape.addrs]
        by_cases h3 : (Shape.insertAt a t k r).2.2 = true
        · rw [if_pos h3] at ihr ⊢
          refine ((ihr.cons p).append_left l.addrs).trans ?_
          have e1 : l.addrs ++ p :: a :: r.addrs = (l.addrs ++ [p]) ++ a :: r.addrs := by simp
          have e2 : a :: (l.addrs ++ p :: r.addrs) = a :: ((l.addrs ++ [p]) ++ r.addrs) := by simp
          rw [e1, e2]
          exact List.perm_middle
        · rw [if_neg h3] at ihr ⊢
          exact (ihr.cons p).append_left _

theorem Shape.insertAt_inorder (a : Nat) (t : α) (k : Bool) (s : Shape α)
    (hi : (s.insertAt a t k).2.2 = true) :
    ∃ l1 l2, s.inorder = l1 ++ l2 ∧ (s.insertAt a t k).1.inorder = l1 ++ t :: l2 ∧
      (s.Ordered → (∀ x ∈ l1, x ≤ t) ∧ ∀ x ∈ l2, t < x) := by
  induction s with
  | nil => exact ⟨[], [], by simp [Shape.inorder, Shape.insertAt]⟩
  | node l p v r ihl ihr =>
    simp only [Shape.insertAt] at hi ⊢
    by_cases h1 : (k && decide (t = v)) = true
    · simp only [if_pos h1] at hi; simp at hi
    · simp only [if_neg h1] at hi ⊢
      by_cases h2 : t < v
      · simp only [if_pos h2] at hi ⊢
        obtain ⟨l1, l2, e1, e2, e3⟩ := ihl hi
        refine ⟨l1, l2 ++ v :: r.inorder, by simp [Shape.inorder, e1], by simp [Shape.inorder, e2], ?_⟩
        intro ho
        obtain ⟨o1, o2, o3, o4⟩ := ho
        obtain ⟨f1, f2⟩ := e3 o3
        refine ⟨f1, ?_⟩
        intro x hx
        simp only [List.mem_append, List.mem_cons] at hx
        rcases hx with hx | rfl | hx
        · exact f2 x hx
        · exact h2
        · exact lt_of_lt_of_le h2 (o2 x hx)
      · simp only [if_neg h2] at hi ⊢
        obtain ⟨l1, l2, e1, e2, e3⟩ := ihr hi
        refine ⟨l.inorder ++ v :: l1, l2, by simp [Shape.inorder, e1], by simp [Shape.inorder, e2], ?_⟩
        intro ho
        obtain ⟨o1, o2, o3, o4⟩ := ho
        obtain ⟨f1, f2⟩ := e3 o4
        refine ⟨?_, f2⟩
        intro x hx
        simp only [List.mem_append, List.mem_cons] at hx
        rcases hx with hx | rfl | hx
        · exact le_of_lt (lt_of_lt_of_le (o1 x hx) (not_lt.mp h2))
        · exact not_lt.mp h2
        · exact f1 x hx

theorem Shape.insertAt_mem (a : Nat) (t : α) (k : Bool) (s : Shape α) (x : α)
    (hx : x ∈ (s.insertAt a t k).1.inorder) : x ∈ s.inorder ∨ x = t := by
  by_cases hi : (s.insertAt a t k).2.2 = true
  · obtain ⟨l1, l2, e1, e2, _⟩ := Shape.insertAt_inorder a t k s hi
    rw [e2] at hx
    rw [e1]
    simp only [List.mem_append, List.mem_cons] at hx ⊢
    tauto
  · rw [Shape.insertAt_false_eq a t k s (by simpa using hi)] at hx
    exact Or.inl hx

theorem Shape.insertAt_ordered (a : Nat) (t : α) (k : Bool) (s : Shape α) (ho : s.Ordered) :
    (s.insertAt a t k).1.Ordered := by
  induction s with
  | nil => simp [Shape.insertAt, Shape.Ordered, Shape.inorder]
  | node l p v r ihl ihr =>
    obtain ⟨o1, o2, o3, o4⟩ := ho
    simp only [Shape.insertAt]
    by_cases h1 : (k && decide (t = v)) = true
    · simp only [if_pos h1]; exact ⟨o1, o2, o3, o4⟩
    · simp only [if_neg h1]
      by_cases h2 : t < v
      · simp only [if_pos h2]
        refine ⟨?_, o2, ihl o3, o4⟩
        intro x hx
        rcases Shape.insertAt_mem a t k l x hx with hx | rfl
        · exact o1 x hx
        · exact h2
      · simp only [if_neg h2]
        refine ⟨o1, ?_, o3, ihr o4⟩
        intro x hx
        rcases Shape.insertAt_mem a t k r x hx with hx | rfl
        · exact o2 x hx
        · exact not_lt.mp h2

/-- With `keepUnique` off the descent never stops early. -/
theorem Shape.insertAt_dup (a : Nat) (t : α) (s : Shape α) :
    (s.insertAt a t false).2.2 = true := by
  induction s with
  | nil => rfl
  | node l p v r ihl ihr =>
    simp only [Shape.insertAt, Bool.false_and]
    split_ifs <;> simp_all

/-- The descent stops early only at a node that holds the value. -/
theorem Shape.insertAt_false_mem (a : Nat) (t : α) (k : Bool) (s : Shape α)
    (hf : (s.insertAt a t k).2.2 = false) : t ∈ s.inorder := by
  induction s with
  | nil => simp [Shape.insertAt] at hf
  | node l p v r ihl ihr =>
    simp only [Shape.insertAt] at hf
    by_cases h1 : (k && decide (t = v)) = true
    · simp only [Bool.and_eq_true, decide_eq_true_eq] at h1
      simp [Shape.inorder, h1.2]
    · simp only [if_neg h1] at hf
      by_cases h2 : t < v
      · simp only [if_pos h2] at hf
        simp [Shape.inorder, ihl hf]
      · simp only [if_neg h2] at hf
        simp [Shape.inorder, ihr hf]

/-- On an ordered tree the unique descent finds every value that is present. -/
theorem Shape.insertAt_unique_of_mem (a : Nat) (t : α) (s : Shape α) (ho : s.Ordered)
    (hm : t ∈ s.inorder) : (s.insertAt a t true).2.2 = false := by
  induction s with
  | nil => simp [Shape.inorder] at hm
  | node l p v r ihl ihr =>
    obtain ⟨o1, o2, o3, o4⟩ := ho
    simp only [Shape.insertAt, Bool.true_and, decide_eq_true_eq]
    by_cases h1 : t = v
    · simp [if_pos h1]
    · simp only [if_neg h1]
      simp only [Shape.inorder, List.mem_append, List.mem_cons] at hm
      by_cases h2 : t < v
      · simp only [if_pos h2]
        rcases hm with hm | hm | hm
        · exact ihl o3 hm
        · exact absurd hm h1
        · exact absurd h2 (not_lt.mpr (o2 t hm))
      · simp only [if_neg h2]
        rcases hm with hm | hm | hm
        · exact absurd (o1 t hm) h2
        · exact absurd hm h1
        · exact ihr o4 hm

/-- The node at which the descent stops early is a live cell that holds the value. -/
theorem Shape.insertAt_false_cell (a : Nat) (t : α) (k : Bool) {h : Heap α} :
    ∀ (s : Shape α) (par : Ptr), Rep h par s → (s.insertAt a t k).2.2 = false →
      ∃ q n, (s.insertAt a t k).2.1 = some q ∧ h.cells q = some n ∧ n.data = t := by
  intro s
  induction s with
  | nil => intro par _ hf; simp [Shape.insertAt] at hf
  | node l p v r ihl ihr =>
    intro par hrep hf
    obtain ⟨hc, hl, hr⟩ := hrep
    simp only [Shape.insertAt] at hf ⊢
    by_cases h1 : (k && decide (t = v)) = true
    · simp only [if_pos h1]
      simp only [Bool.and_eq_true, decide_eq_true_eq] at h1
      exact ⟨p, _, rfl, hc, h1.2.symm⟩
    · simp only [if_neg h1] at hf ⊢
      by_cases h2 : t < v
      · simp only [if_pos h2] at hf ⊢
        exact ihl _ hl hf
      · simp only [if_neg h2] at hf ⊢
        exact ihr _ hr hf

end InsertAt

/-! ## insert -/

section InsertSpec
variable [LinearOrder α]

/-- Function `BST::insert` on a well-formed tree: it returns, the result is what the descent on
the shape computes, and the new tree is well-formed. -/
theorem BST.insert_spec {h : Heap α} {b : BST} {s : Shape α} (t : α) (k : Bool)
    (hwf : WellFormed h b s) :
    ∃ h1 b1, b.insert h t k =
        Except.ok (h1, b1, ⟨(s.insertAt h.next t k).2.1⟩, (s.insertAt h.next t k).2.2) ∧
      WellFormed h1 b1 (s.insertAt h.next t k).1 ∧
      b1.numElements = b.numElements + (if (s.insertAt h.next t k).2.2 then 1 else 0) ∧
      h.next ≤ h1.next ∧
      ((s.insertAt h.next t k).2.2 = false → h1 = h ∧ b1 = b) := by
  obtain ⟨hroot, hrep, hnd, hb, hcount⟩ := hwf
  cases s with
  | nil =>
    simp only [Shape.ptr] at hroot
    simp only [Shape.size] at hcount
    refine ⟨(h.alloc t).1, ⟨some h.next, 1⟩, ?_, ?_, ?_, ?_, ?_⟩
    · simp [BST.insert, hroot, Heap.alloc, Shape.insertAt]
    · refine ⟨rfl, ?_, ?_, ?_, ?_⟩
      · simp [Shape.insertAt, Rep, Heap.alloc, Shape.ptr]
      · simp [Shape.insertAt, Shape.addrs]
      · simp [Shape.insertAt, Shape.addrs, Heap.alloc]
      · simp [Shape.insertAt, Shape.size]
    · simp [Shape.insertAt, hcount]
    · simp [Heap.alloc]
    · simp [Shape.insertAt]
  | node l p v r =>
    have hne : Shape.node l p v r ≠ Shape.nil := by simp
    have hfuel : (Shape.node l p v r).size ≤ h.fuel :=
      Nat.le_succ_of_le (Shape.size_le_next _ _ hnd hb)
    obtain ⟨h1, e1, e2, e3, e4, e5⟩ := _insert_rep t k _ none h.fuel h hne hrep hnd hb hfuel
    have hperm := Shape.insertAt_addrs h.next t k (Shape.node l p v r)
    have hfresh : h.next ∉ (Shape.node l p v r).addrs := fun hm => Nat.lt_irrefl _ (hb _ hm)
    have hsz := Shape.insertAt_size h.next t k (Shape.node l p v r)
    have hptr := Shape.insertAt_ptr h.next t k _ hne
    generalize Shape.insertAt h.next t k (Shape.node l p v r) = res at *
    obtain ⟨s1, q, ins⟩ := res
    simp only at e1 e2 e4 e5 hperm hsz hptr
    have hsome : b.root.isSome = true := by rw [hroot]; rfl
    refine ⟨h1, if ins then { b with numElements := b.numElements + 1 } else b, ?_, ?_, ?_, ?_, ?_⟩
    · simp only [BST.insert, hsome, if_true]
      rw [hroot, e1]
      rfl
    · cases ins with
      | true =>
        simp only [if_true] at hperm e4 hsz ⊢
        refine ⟨by simpa [hptr] using hroot, e2, ?_, ?_, ?_⟩
        · exact hperm.nodup_iff.mpr (List.nodup_cons.mpr ⟨hfresh, hnd⟩)
        · intro a ha
          rw [e4]
          rcases List.mem_cons.mp (hperm.mem_iff.mp ha) with rfl | hm
          · exact Nat.lt_succ_self _
          · exact Nat.lt_succ_of_lt (hb a hm)
        · simp [hsz, hcount]
      | false =>
        simp only [Bool.false_eq_true, if_false] at hperm e4 hsz ⊢
        refine ⟨by simpa [hptr] using hroot, e2, hperm.nodup_iff.mpr hnd, ?_, ?_⟩
        · intro a ha
          rw [e4]
          exact hb a (hperm.mem_iff.mp ha)
        · simp [hsz, hcount]
    · cases ins <;> simp
    · rw [e4]; cases ins <;> simp
    · intro hf
      simp only at hf
      subst hf
      exact ⟨e5 rfl, by simp⟩

end InsertSpec

/-! ## Concrete instances -/

theorem wf538 : WellFormed heap538 tree538 shape538 :=
  ⟨rfl, ⟨rfl, ⟨rfl, trivial, trivial⟩, ⟨rfl, trivial, trivial⟩⟩, by decide,
   by simp [shape538, Shape.addrs, heap538], rfl⟩

theorem ordered538 : shape538.Ordered := by
  simp [shape538, Shape.Ordered, Shape.inorder]

/-! ## find -/

section FindSpec
variable [LinearOrder α]

theorem findLoop_rep (t : α) {h : Heap α} :
    ∀ (s : Shape α) (par : Ptr) (fuel : Nat), Rep h par s → s.size + 1 ≤ fuel →
      findLoop fuel h s.ptr t = Except.ok ⟨s.lookup t⟩ := by
  intro s
  induction s with
  | nil =>
    intro par fuel _ hf
    cases fuel with
    | zero => omega
    | succ fuel => rfl
  | node l p v r ihl ihr =>
    intro par fuel hrep hf
    obtain ⟨hc, hl, hr⟩ := hrep
    cases fuel with
    | zero => omega
    | succ fuel =>
      simp only [Shape.size] at hf
      have hptr : (Shape.node l p v r).ptr = some p := rfl
      simp only [hptr, findLoop, Heap.read_some hc, ok_bind, Shape.lookup]
      by_cases h1 : v = t
      · simp only [if_pos h1]; rfl
      · simp only [if_neg h1]
        by_cases h2 : t < v
        · simp only [if_pos h2]
          exact ihl _ fuel hl (by omega)
        · simp only [if_neg h2]
          exact ihr _ fuel hr (by omega)

theorem Shape.lookup_none_iff (t : α) (s : Shape α) (ho : s.Ordered) :
    s.lookup t = none ↔ t ∉ s.inorder := by
  induction s with
  | nil => simp [Shape.lookup, Shape.inorder]
  | node l p v r ihl ihr =>
    obtain ⟨o1, o2, o3, o4⟩ := ho
    simp only [Shape.lookup, Shape.inorder, List.mem_append, List.mem_cons]
    by_cases h1 : v = t
    · simp [if_pos h1, h1]
    · simp only [if_neg h1]
      have h1' : ¬ t = v := fun e => h1 e.symm
      by_cases h2 : t < v
      · simp only [if_pos h2, ihl o3]
        constructor
        · intro hn hm
          rcases hm with hm | hm | hm
          · exact hn hm
          · exact h1' hm
          · exact absurd h2 (not_lt.mpr (o2 t hm))
        · intro hn hm; exact hn (Or.inl hm)
      · simp only [if_neg h2, ihr o4]
        constructor
        · intro hn hm
          rcases hm with hm | hm | hm
          · exact h2 (o1 t hm)
          · exact h1' hm
          · exact hn hm
        · intro hn hm; exact hn (Or.inr (Or.inr hm))

theorem Shape.lookup_cell (t : α) {h : Heap α} :
    ∀ (s : Shape α) (par : Ptr) (q : Nat), Rep h par s → s.lookup t = some q →
      ∃ n, h.cells q = some n ∧ n.data = t := by
  intro s
  induction s with
  | nil => intro par q _ hq; simp [Shape.lookup] at hq
  | node l p v r ihl ihr =>
    intro par q hrep hq
    obtain ⟨hc, hl, hr⟩ := hrep
    simp only [Shape.lookup] at hq
    by_cases h1 : v = t
    · simp only [if_pos h1, Option.some.injEq] at hq
      subst hq
      exact ⟨_, hc, h1⟩
    · simp only [if_neg h1] at hq
      by_cases h2 : t < v
      · simp only [if_pos h2] at hq
        exact ihl _ q hl hq
      · simp only [if_neg h2] at hq
        exact ihr _ q hr hq

/-- Function `BST::find` on a well-formed tree returns the node found by the descent on the shape. -/
theorem BST.find_spec {h : Heap α} {b : BST} {s : Shape α} (t : α) (hwf : WellFormed h b s) :
    b.find h t = Except.ok ⟨s.lookup t⟩ := by
  unfold BST.find
  rw [hwf.root]
  exact findLoop_rep t s none h.fuel hwf.rep
    (Nat.succ_le_succ (Shape.size_le_next _ _ hwf.nodup hwf.bound))

end FindSpec

/-! ## Claims -/

/-- C1: on a tree that satisfies the BST ordering invariant, `insert(t, true)` reports
`inserted = false` exactly when a value equal to `t` is in the tree; then the heap and
the tree object (hence `size()`) are unchanged and the returned iterator references a
node whose value is `t`.  When `t` is absent it reports `inserted = true` and `size()`
grows by one. -/
theorem insert_keepUnique_contract [LinearOrder α] (h : Heap α) (b : BST) (s : Shape α)
    (t : α) (hwf : WellFormed h b s) (ho : s.Ordered) :
    ∃ h1 b1 it inserted, b.insert h t true = Except.ok (h1, b1, it, inserted) ∧
      (inserted = false ↔ t ∈ s.inorder) ∧
      (inserted = false → h1 = h ∧ b1 = b ∧ b1.size = b.size ∧
        ∃ a n, it.pNode = some a ∧ h1.cells a = some n ∧ n.data = t) ∧
      (inserted = true → b1.size = b.size + 1) := by
  obtain ⟨h1, b1, e1, _, e3, _, e5⟩ := BST.insert_spec t true hwf
  refine ⟨h1, b1, _, _, e1, ?_, ?_, ?_⟩
  · constructor
    · exact Shape.insertAt_false_mem _ _ _ _
    · exact Shape.insertAt_unique_of_mem _ _ _ ho
  · intro hf
    obtain ⟨rfl, rfl⟩ := e5 hf
    refine ⟨rfl, rfl, rfl, ?_⟩
    exact Shape.insertAt_false_cell _ t true s none hwf.rep hf
  · intro ht
    simp [BST.size, e3, ht]

/-- Instance of C1: inserting 3 into the tree 5, 3, 8. -/
theorem insert_keepUnique_contract_witness :
    WellFormed heap538 tree538 shape538 ∧ shape538.Ordered ∧
    ∃ h1 b1 it inserted, tree538.insert heap538 3 true = Except.ok (h1, b1, it, inserted) ∧
      (inserted = false ↔ 3 ∈ shape538.inorder) ∧
      (inserted = false → h1 = heap538 ∧ b1 = tree538 ∧ b1.size = tree538.size ∧
        ∃ a n, it.pNode = some a ∧ h1.cells a = some n ∧ n.data = 3) ∧
      (inserted = true → b1.size = tree538.size + 1) :=
  ⟨wf538, ordered538, insert_keepUnique_contract heap538 tree538 shape538 3 wf538 ordered538⟩

/-- C2: `insert(t, false)` on any tree reports `inserted = true`, `size()` grows by
exactly one, and the in-order sequence of the new tree is the old one with one more
occurrence of `t`; on a tree that satisfies the ordering invariant the new occurrence
stands after every value less than or equal to `t` and before every greater value. -/
theorem insert_duplicate_contract [LinearOrder α] (h : Heap α) (b : BST) (s : Shape α)
    (t : α) (hwf : WellFormed h b s) :
    ∃ h1 b1 it s1, b.insert h t false = Except.ok (h1, b1, it, true) ∧
      b1.size = b.size + 1 ∧ WellFormed h1 b1 s1 ∧
      ∃ l1 l2, s.inorder = l1 ++ l2 ∧ s1.inorder = l1 ++ t :: l2 ∧
        (s.Ordered → (∀ x ∈ l1, x ≤ t) ∧ ∀ x ∈ l2, t < x) := by
  obtain ⟨h1, b1, e1, e2, e3, _, _⟩ := BST.insert_spec t false hwf
  have hi := Shape.insertAt_dup h.next t s
  rw [hi] at e1 e3
  exact ⟨h1, b1, _, _, e1, by simp [BST.size, e3], e2, Shape.insertAt_inorder _ _ _ _ hi⟩

/-- Instance of C2: inserting a second 5 into the tree 5, 3, 8. -/
theorem insert_duplicate_contract_witness :
    WellFormed heap538 tree538 shape538 ∧
    ∃ h1 b1 it s1, tree538.insert heap538 5 false = Except.ok (h1, b1, it, true) ∧
      b1.size = tree538.size + 1 ∧ WellFormed h1 b1 s1 ∧
      ∃ l1 l2, shape538.inorder = l1 ++ l2 ∧ s1.inorder = l1 ++ 5 :: l2 ∧
        (shape538.Ordered → (∀ x ∈ l1, x ≤ 5) ∧ ∀ x ∈ l2, 5 < x) :=
  ⟨wf538, insert_duplicate_contract heap538 tree538 shape538 5 wf538⟩

theorem Shape.Ordered.sorted [LinearOrder α] : ∀ (s : Shape α), s.Ordered →
    s.inorder.Sorted (fun x y => x ≤ y) := by
  intro s
  induction s with
  | nil => intro _; simp [Shape.inorder]
  | node l p v r ihl ihr =>
    intro ho
    obtain ⟨o1, o2, o3, o4⟩ := ho
    simp only [Shape.inorder, List.Sorted, List.pairwise_append, List.pairwise_cons]
    refine ⟨ihl o3, ⟨o2, ihr o4⟩, ?_⟩
    intro x hx y hy
    rcases List.mem_cons.mp hy with rfl | hy
    · exact le_of_lt (o1 x hx)
    · exact le_trans (le_of_lt (o1 x hx)) (o2 y hy)

/-- A sequence of inserts keeps a well-formed ordered tree well-formed and ordered. -/
theorem BST.insertAll_spec [LinearOrder α] (ops : List (α × Bool)) :
    ∀ (h : Heap α) (b : BST) (s : Shape α), WellFormed h b s → s.Ordered →
      ∃ h1 b1 s1, BST.insertAll h b ops = Except.ok (h1, b1) ∧ WellFormed h1 b1 s1 ∧
        s1.Ordered := by
  induction ops with
  | nil => intro h b s hwf ho; exact ⟨h, b, s, rfl, hwf, ho⟩
  | cons op ops ih =>
    intro h b s hwf ho
    obtain ⟨t, k⟩ := op
    obtain ⟨h1, b1, e1, e2, _⟩ := BST.insert_spec t k hwf
    obtain ⟨h2, b2, s2, f1, f2, f3⟩ := ih h1 b1 _ e2 (Shape.insertAt_ordered h.next t k s ho)
    refine ⟨h2, b2, s2, ?_, f2, f3⟩
    simp only [BST.insertAll, e1, ok_bind]
    exact f1

/-- C3: every finite sequence of `insert(t, keepUnique)` calls, with any mix of flags,
applied to an empty tree returns and leaves a well-formed tree that satisfies the BST
ordering invariant, so its in-order sequence is non-decreasing. -/
theorem insert_sequence_ordered [LinearOrder α] (h0 : Heap α) (ops : List (α × Bool)) :
    ∃ h1 b1 s1, BST.insertAll h0 BST.mk0 ops = Except.ok (h1, b1) ∧ WellFormed h1 b1 s1 ∧
      s1.Ordered ∧ s1.inorder.Sorted (fun x y => x ≤ y) := by
  have hwf : WellFormed h0 BST.mk0 (Shape.nil : Shape α) :=
    ⟨rfl, trivial, List.nodup_nil, by simp [Shape.addrs], rfl⟩
  obtain ⟨h1, b1, s1, e1, e2, e3⟩ := BST.insertAll_spec ops h0 BST.mk0 Shape.nil hwf trivial
  exact ⟨h1, b1, s1, e1, e2, e3, Shape.Ordered.sorted s1 e3⟩

/-- C5: on a tree that satisfies the BST ordering invariant `find(t)` returns; the
iterator references a node whose value is `t` when `t` occurs in the tree, and it is the
past-the-end iterator exactly when `t` does not occur.  `find` only reads the heap: the
embedded function has no heap or tree output. -/
theorem find_contract [LinearOrder α] (h : Heap α) (b : BST) (s : Shape α) (t : α)
    (hwf : WellFormed h b s) (ho : s.Ordered) :
    ∃ it, b.find h t = Except.ok it ∧
      (t ∈ s.inorder → ∃ a n, it.pNode = some a ∧ h.cells a = some n ∧ n.data = t) ∧
      (it = BST.endIt ↔ t ∉ s.inorder) := by
  refine ⟨⟨s.lookup t⟩, BST.find_spec t hwf, ?_, ?_⟩
  · intro hm
    cases hq : s.lookup t with
    | none => exact absurd hm ((Shape.lookup_none_iff t s ho).mp hq)
    | some q =>
      obtain ⟨n, hn, hd⟩ := Shape.lookup_cell t s none q hwf.rep hq
      exact ⟨q, n, rfl, hn, hd⟩
  · rw [← Shape.lookup_none_iff t s ho]
    simp [BST.endIt]

/-- Instance of C5: looking up 8 in the tree 5, 3, 8. -/
theorem find_contract_witness :
    WellFormed heap538 tree538 shape538 ∧ shape538.Ordered ∧
    ∃ it, tree538.find heap538 8 = Except.ok it ∧
      (8 ∈ shape538.inorder → ∃ a n, it.pNode = some a ∧ heap538.cells a = some n ∧ n.data = 8) ∧
      (it = BST.endIt ↔ 8 ∉ shape538.inorder) :=
  ⟨wf538, ordered538, find_contract heap538 tree538 shape538 8 wf538 ordered538⟩

/-! ## erase of a leaf -/

theorem Shape.ptr_mem {s : Shape α} {a : Nat} (hp : s.ptr = some a) : a ∈ s.addrs := by
  cases s with
  | nil => simp [Shape.ptr] at hp
  | node l p v r =>
    simp only [Shape.ptr, Option.some.injEq] at hp
    simp [Shape.addrs, hp]

/-- In a held shape, a node other than the root has a live parent that is a node of the
shape and references it through exactly one of its two child links. -/
theorem Rep.parent_link {h : Heap α} {a : Nat} {n : BNode α} (hn : h.cells a = some n) :
    ∀ (s : Shape α) (par : Ptr), Rep h par s → s.addrs.Nodup → a ∈ s.addrs →
      (s.ptr = some a ∧ n.pParent = par) ∨
      ∃ q pn, n.pParent = some q ∧ h.cells q = some pn ∧ q ∈ s.addrs ∧ q ≠ a ∧
        ((pn.pLeft = some a ∧ pn.pRight ≠ some a) ∨
         (pn.pRight = some a ∧ pn.pLeft ≠ some a)) := by
  intro s
  induction s with
  | nil => intro par _ _ ha; simp [Shape.addrs] at ha
  | node l p v r ihl ihr =>
    intro par hrep hnd ha
    obtain ⟨hc, hl, hr⟩ := hrep
    obtain ⟨hndl, hndr, hpl, hpr, hdis⟩ := Shape.nodup_node hnd
    simp only [Shape.addrs, List.mem_append, List.mem_cons] at ha
    rcases ha with ha | ha | ha
    · right
      have hpa : p ≠ a := fun e => hpl (e ▸ ha)
      rcases ihl (some p) hl hndl ha with ⟨h1, h2⟩ | ⟨q, pn, h1, h2, h3, h4, h5⟩
      · refine ⟨p, _, h2, hc, by simp [Shape.addrs], hpa, Or.inl ⟨h1, ?_⟩⟩
        intro hra
        exact hdis a ha (Shape.ptr_mem hra)
      · exact ⟨q, pn, h1, h2, by simp [Shape.addrs, h3], h4, h5⟩
    · left
      subst ha
      rw [hc] at hn
      simp only [Option.some.injEq] at hn
      subst hn
      exact ⟨rfl, rfl⟩
    · right
      have hpa : p ≠ a := fun e => hpr (e ▸ ha)
      rcases ihr (some p) hr hndr ha with ⟨h1, h2⟩ | ⟨q, pn, h1, h2, h3, h4, h5⟩
      · refine ⟨p, _, h2, hc, by simp [Shape.addrs], hpa, Or.inr ⟨h1, ?_⟩⟩
        intro hla
        exact hdis a (Shape.ptr_mem hla) ha
      · exact ⟨q, pn, h1, h2, by simp [Shape.addrs, h3], h4, h5⟩

theorem Shape.prune_ptr (a : Nat) (s : Shape α) :
    (s.prune a).ptr = if s.ptr = some a then none else s.ptr := by
  cases s with
  | nil => simp [Shape.prune, Shape.ptr]
  | node l p v r =>
    simp only [Shape.prune, Shape.ptr, Option.some.injEq]
    split_ifs <;> rfl

theorem Shape.prune_sublist (a : Nat) (s : Shape α) : (s.prune a).addrs.Sublist s.addrs := by
  induction s with
  | nil => simp [Shape.prune]
  | node l p v r ihl ihr =>
    simp only [Shape.prune]
    split_ifs
    · simp [Shape.addrs]
    · simp only [Shape.addrs]
      exact ihl.append (ihr.cons₂ p)

theorem Shape.prune_of_not_mem (a : Nat) (s : Shape α) (ha : a ∉ s.addrs) : s.prune a = s := by
  induction s with
  | nil => rfl
  | node l p v r ihl ihr =>
    simp only [Shape.addrs, List.mem_append, List.mem_cons, not_or] at ha
    simp only [Shape.prune]
    rw [if_neg (fun e => ha.2.1 e.symm), ihl ha.1, ihr ha.2.2]

/-- Pruning a leaf removes exactly its value from the in-order sequence. -/
theorem Shape.prune_leaf {h : Heap α} {a : Nat} {n : BNode α} (hn : h.cells a = some n)
    (hl : n.pLeft = none) (hr : n.pRight = none) :
    ∀ (s : Shape α) (par : Ptr), Rep h par s → s.addrs.Nodup → a ∈ s.addrs →
      (s.prune a).size + 1 = s.size ∧
      ∃ l1 l2, s.inorder = l1 ++ n.data :: l2 ∧ (s.prune a).inorder = l1 ++ l2 := by
  intro s
  induction s with
  | nil => intro par _ _ ha; simp [Shape.addrs] at ha
  | node l p v r ihl ihr =>
    intro par hrep hnd ha
    obtain ⟨hc, hrl, hrr⟩ := hrep
    obtain ⟨hndl, hndr, hpl, hpr, hdis⟩ := Shape.nodup_node hnd
    simp only [Shape.addrs, List.mem_append, List.mem_cons] at ha
    by_cases hpa : p = a
    · subst hpa
      rw [hc] at hn
      simp only [Option.some.injEq] at hn
      subst hn
      simp only at hl hr
      rw [Shape.ptr_eq_none_iff] at hl hr
      subst hl; subst hr
      simp only [Shape.prune, if_true, Shape.size, Shape.inorder]
      exact ⟨trivial, [], [], rfl, rfl⟩
    · simp only [Shape.prune, if_neg hpa, Shape.size, Shape.inorder]
      rcases ha with ha | ha | ha
      · obtain ⟨e1, l1, l2, e2, e3⟩ := ihl _ hrl hndl ha
        rw [Shape.prune_of_not_mem a r (hdis a ha)]
        refine ⟨by omega, l1, l2 ++ v :: r.inorder, by simp [e2], by simp [e3]⟩
      · exact absurd ha.symm hpa
      · obtain ⟨e1, l1, l2, e2, e3⟩ := ihr _ hrr hndr ha
        rw [Shape.prune_of_not_mem a l (fun hm => hdis a hm ha)]
        refine ⟨by omega, l.inorder ++ v :: l1, l2, by simp [e2], by simp [e3]⟩

/-- After the link of the parent `q` to the node `a` is cleared and `a` is deleted, the
heap holds the pruned shape. -/
theorem Rep.prune {h h1 : Heap α} {a q : Nat} {n : BNode α} (hn : h.cells a = some n)
    (hq : n.pParent = some q)
    (hag : ∀ x, x ≠ a → x ≠ q → h1.cells x = h.cells x)
    (hq1 : q ≠ a → ∀ pn, h.cells q = some pn →
      h1.cells q = some ⟨pn.data, if pn.pLeft = some a then none else pn.pLeft,
        if pn.pRight = some a then none else pn.pRight, pn.pParent⟩) :
    ∀ (s : Shape α) (par : Ptr), Rep h par s → s.ptr ≠ some a → Rep h1 par (s.prune a) := by
  intro s
  induction s with
  | nil => intro par _ _; trivial
  | node l p v r ihl ihr =>
    intro par hrep hroot
    obtain ⟨hc, hrl, hrr⟩ := hrep
    have hpa : p ≠ a := fun e => hroot (by simp [Shape.ptr, e])
    simp only [Shape.prune, if_neg hpa]
    have hsub : ∀ (c : Shape α), Rep h (some p) c → (∀ par, Rep h par c → c.ptr ≠ some a →
        Rep h1 par (c.prune a)) → Rep h1 (some p) (c.prune a) := by
      intro c hc1 ih
      by_cases hca : c.ptr = some a
      · cases c with
        | nil => trivial
        | node cl cp cv cr =>
          simp only [Shape.ptr, Option.some.injEq] at hca
          simp [Shape.prune, hca, Rep]
      · exact ih _ hc1 hca
    refine ⟨?_, hsub l hrl ihl, hsub r hrr ihr⟩
    by_cases hpq : p = q
    · subst hpq
      rw [hq1 hpa _ hc, Shape.prune_ptr, Shape.prune_ptr]
    · rw [hag p hpa hpq, hc, Shape.prune_ptr, Shape.prune_ptr]
      have hchild : ∀ (c : Shape α), Rep h (some p) c → c.ptr ≠ some a := by
        intro c hc1 hca
        cases c with
        | nil => simp [Shape.ptr] at hca
        | node cl cp cv cr =>
          simp only [Shape.ptr, Option.some.injEq] at hca
          subst hca
          rw [hc1.1] at hn
          simp only [Option.some.injEq] at hn
          subst hn
          simp only [Option.some.injEq] at hq
          exact hpq hq
      rw [if_neg (hchild l hrl), if_neg (hchild r hrr)]

/-- C8: erasing a leaf that has a parent, in a well-formed tree: `erase` returns, it
clears exactly the link of the parent that referenced the leaf, deletes the leaf, leaves
every other cell and the root unchanged, decreases `size()` by one, and the result is a
well-formed tree whose in-order sequence is the old one without that element. -/
theorem erase_leaf_contract [DecidableEq α] (h : Heap α) (b : BST) (s : Shape α) (a q : Nat)
    (n : BNode α) (hwf : WellFormed h b s) (ha : a ∈ s.addrs) (hn : h.cells a = some n)
    (hl : n.pLeft = none) (hr : n.pRight = none) (hp : n.pParent = some q) :
    ∃ h1 b1 pn, b.erase h ⟨some a⟩ = Except.ok (h1, b1, ⟨none⟩) ∧
      h.cells q = some pn ∧
      ((pn.pRight = some a ∧ h1.cells q = some { pn with pRight := none }) ∨
       (pn.pRight ≠ some a ∧ pn.pLeft = some a ∧
         h1.cells q = some { pn with pLeft := none })) ∧
      h1.cells a = none ∧
      (∀ x, x ≠ a → x ≠ q → h1.cells x = h.cells x) ∧
      b1.root = b.root ∧ b1.size + 1 = b.size ∧
      ∃ s1, WellFormed h1 b1 s1 ∧
        ∃ l1 l2, s.inorder = l1 ++ n.data :: l2 ∧ s1.inorder = l1 ++ l2 := by
  obtain ⟨hroot, hrep, hnd, hb, hcount⟩ := hwf
  have hlink := Rep.parent_link hn s none hrep hnd ha
  rcases hlink with ⟨_, h2⟩ | ⟨q1, pn, h1, h2, h3, h4, h5⟩
  · rw [hp] at h2; exact absurd h2 (by simp)
  have hqq : q1 = q := by rw [hp] at h1; exact (Option.some.inj h1).symm
  subst hqq
  have haq : a ≠ q1 := fun e => h4 e.symm
  obtain ⟨hsz, l1, l2, hin1, hin2⟩ := Shape.prune_leaf hn hl hr s none hrep hnd ha
  have hrootne : s.ptr ≠ some a := by
    intro hsa
    cases s with
    | nil => simp [Shape.ptr] at hsa
    | node sl sp sv sr =>
      simp only [Shape.ptr, Option.some.injEq] at hsa
      subst hsa
      rw [hrep.1] at hn
      simp only [Option.some.injEq] at hn
      subst hn
      simp at hp
  have hnum : sizeDecr b.numElements + 1 = b.numElements := by
    have : 0 < b.numElements := by rw [hcount]; omega
    unfold sizeDecr
    rw [if_neg (by omega)]; omega
  -- the heap after the erase, in terms of the cleared node
  have key : ∀ (pn1 : BNode α) (h1 : Heap α),
      pn1 = ⟨pn.data, if pn.pLeft = some a then none else pn.pLeft,
        if pn.pRight = some a then none else pn.pRight, pn.pParent⟩ →
      h1 = ⟨fun x => if x = a then none else if x = q1 then some pn1 else h.cells x, h.next⟩ →
      h1.cells a = none ∧ (∀ x, x ≠ a → x ≠ q1 → h1.cells x = h.cells x) ∧
      h1.cells q1 = some pn1 ∧
      WellFormed h1 ⟨b.root, sizeDecr b.numElements⟩ (s.prune a) := by
    intro pn1 h1 hpn1 hh1
    subst hh1
    have hag : ∀ x, x ≠ a → x ≠ q1 →
        (if x = a then none else if x = q1 then some pn1 else h.cells x) = h.cells x := by
      intro x hx1 hx2; simp [hx1, hx2]
    refine ⟨by simp, hag, by simp [h4], ?_⟩
    refine ⟨?_, ?_, ?_, ?_, ?_⟩
    · rw [Shape.prune_ptr, if_neg hrootne]; exact hroot
    · refine Rep.prune hn hp hag ?_ s none hrep hrootne
      intro _ pn2 hpn2
      rw [h2] at hpn2
      simp only [Option.some.injEq] at hpn2
      subst hpn2
      simp [h4, hpn1]
    · exact (Shape.prune_sublist a s).nodup hnd
    · intro x hx
      exact hb x ((Shape.prune_sublist a s).subset hx)
    · show sizeDecr b.numElements = (s.prune a).size
      omega
  rcases h5 with ⟨hL, hR⟩ | ⟨hR, hL⟩
  · obtain ⟨k1, k2, k3, k4⟩ := key { pn with pLeft := none } _ (by simp [hL, hR]) rfl
    refine ⟨_, ⟨b.root, sizeDecr b.numElements⟩, pn, ?_, h2, Or.inr ⟨hR, hL, k3⟩, k1, k2, rfl,
      hnum, s.prune a, k4, l1, l2, hin1, hin2⟩
    simp [BST.erase, Heap.read_some hn, hl, hr, BST.eraseCase1, BNode.isRightChild,
      BNode.isLeftChild, hp, Heap.read_some h2, hL, hR, Heap.modify, h2, Heap.free, Heap.store,
      haq, hn]
  · obtain ⟨k1, k2, k3, k4⟩ := key { pn with pRight := none } _ (by simp [hL, hR]) rfl
    refine ⟨_, ⟨b.root, sizeDecr b.numElements⟩, pn, ?_, h2, Or.inl ⟨hR, k3⟩, k1, k2, rfl,
      hnum, s.prune a, k4, l1, l2, hin1, hin2⟩
    simp [BST.erase, Heap.read_some hn, hl, hr, BST.eraseCase1, BNode.isRightChild,
      hp, Heap.read_some h2, hR, Heap.modify, h2, Heap.free, Heap.store,
      haq, hn]

/-- Instance of C8: erasing the leaf 3 (address 1, left child of the root) of the tree
5, 3, 8. -/
theorem erase_leaf_contract_witness :
    WellFormed heap538 tree538 shape538 ∧ 1 ∈ shape538.addrs ∧
    heap538.cells 1 = some ⟨3, none, none, some 0⟩ ∧
    ∃ h1 b1 pn, tree538.erase heap538 ⟨some 1⟩ = Except.ok (h1, b1, ⟨none⟩) ∧
      heap538.cells 0 = some pn ∧
      ((pn.pRight = some 1 ∧ h1.cells 0 = some { pn with pRight := none }) ∨
       (pn.pRight ≠ some 1 ∧ pn.pLeft = some 1 ∧
         h1.cells 0 = some { pn with pLeft := none })) ∧
      h1.cells 1 = none ∧
      (∀ x, x ≠ 1 → x ≠ 0 → h1.cells x = heap538.cells x) ∧
      b1.root = tree538.root ∧ b1.size + 1 = tree538.size ∧
      ∃ s1, WellFormed h1 b1 s1 ∧
        ∃ l1 l2, shape538.inorder = l1 ++ 3 :: l2 ∧ s1.inorder = l1 ++ l2 :=
  ⟨wf538, by decide, rfl,
    erase_leaf_contract heap538 tree538 shape538 1 0 ⟨3, none, none, some 0⟩ wf538 (by decide)
      rfl rfl rfl rfl⟩

/-! ## Defects of `operator++` and `erase` -/

/-- C4 (defect of `operator++`): in the tree built by inserting 5 alone `begin()`
references the root, and the first `++`, which should reach `end()`, dereferences the
null parent of the root.  In the tree built from 5, 3 the second `++` does the same. -/
theorem increment_at_root_without_right_child :
    (∃ h1 b1 it, BST.insertAll (Heap.empty : Heap Nat) BST.mk0 [(5, true)] = Except.ok (h1, b1) ∧
      b1.size = 1 ∧ BST.begin h1 b1 = Except.ok it ∧ it.pNode = b1.root ∧
      iterator.incr h1 it = Except.error Fault.nullDeref) ∧
    (∃ h1 b1 it it1, BST.insertAll (Heap.empty : Heap Nat) BST.mk0 [(5, true), (3, true)] =
        Except.ok (h1, b1) ∧
      b1.size = 2 ∧ BST.begin h1 b1 = Except.ok it ∧ iterator.incr h1 it = Except.ok it1 ∧
      it1.pNode = b1.root ∧ iterator.incr h1 it1 = Except.error Fault.nullDeref) :=
  ⟨⟨_, _, _, rfl, rfl, rfl, rfl, rfl⟩, ⟨_, _, _, _, rfl, rfl, rfl, rfl, rfl, rfl⟩⟩

/-- C6 (defect of `erase`, two children): in the tree built from 5, 3, 8, 1, 4, 7, 9
the node holding 5 is the root and has two children; erasing it dereferences the null
parent of the root in `it.pNode->pParent->pLeft = itInOrderSuccessor`. -/
theorem erase_two_children_at_root :
    ∃ h1 b1 it n, BST.insertAll (Heap.empty : Heap Nat) BST.mk0
        [(5, true), (3, true), (8, true), (1, true), (4, true), (7, true), (9, true)] =
        Except.ok (h1, b1) ∧
      b1.size = 7 ∧ b1.find h1 5 = Except.ok it ∧ it.pNode = b1.root ∧
      h1.read it.pNode = Except.ok n ∧ n.pLeft.isSome = true ∧ n.pRight.isSome = true ∧
      n.pParent = none ∧
      b1.erase h1 it = Except.error Fault.nullDeref :=
  ⟨_, _, _, _, rfl, rfl, rfl, rfl, rfl, rfl, rfl, rfl, rfl⟩

/-- C7 (defect of `erase`, one child): erasing the root 5 of the tree built from 5, 3
(only a left child) dereferences the null parent of the root; erasing the node 20 of the
tree built from 10, 5, 20, 15 (right child of the root, only a left child) returns, but
the right link of the root still references the deleted node and no link references
the child 15 any more. -/
theorem erase_one_child_defects :
    (∃ h1 b1 it, BST.insertAll (Heap.empty : Heap Nat) BST.mk0 [(5, true), (3, true)] =
        Except.ok (h1, b1) ∧
      b1.find h1 5 = Except.ok it ∧ it.pNode = b1.root ∧
      b1.erase h1 it = Except.error Fault.nullDeref) ∧
    (∃ h1 b1 it h2 b2 it2 rt, BST.insertAll (Heap.empty : Heap Nat) BST.mk0
        [(10, true), (5, true), (20, true), (15, true)] = Except.ok (h1, b1) ∧
      b1.find h1 20 = Except.ok it ∧ it.pNode = some 2 ∧
      h1.cells 2 = some ⟨20, some 3, none, some 0⟩ ∧
      b1.erase h1 it = Except.ok (h2, b2, it2) ∧
      b2.root = some 0 ∧ h2.cells 0 = some rt ∧ rt.pRight = some 2 ∧ h2.cells 2 = none ∧
      b2.find h2 15 = Except.error Fault.danglingDeref) :=
  ⟨⟨_, _, _, rfl, rfl, rfl, rfl⟩, ⟨_, _, _, _, _, _, _, rfl, rfl, rfl, rfl, rfl, rfl, rfl, rfl, rfl, rfl⟩⟩

/-- C9 (same defect of `erase`): in the set built from 5, 3 the value 5 is an element,
yet `set::erase(5)` does not return 1: it dereferences the null parent of the root. -/
theorem set_erase_present_root_faults :
    ∃ h1 s1 it, set.insertAll (Heap.empty : Heap Nat) ⟨BST.mk0⟩ [5, 3] = Except.ok (h1, s1) ∧
      s1.size = 2 ∧ set.find h1 s1 5 = Except.ok it ∧ set.iterEq it set.endIt = false ∧
      set.erase h1 s1 5 = Except.error Fault.nullDeref :=
  ⟨_, _, _, rfl, rfl, rfl, rfl, rfl⟩

/-- C10 (same defect of `erase`): in the set built from 10, 5, 20, 15, 30, 25, 27,
`set::erase(20)` returns 1, but afterwards `find(5)` returns the past-the-end iterator
although 5 was not erased, and `find(20)` reads the deleted node. -/
theorem set_erase_then_find_defects :
    ∃ h1 s1 it5 h2 s2, set.insertAll (Heap.empty : Heap Nat) ⟨BST.mk0⟩
        [10, 5, 20, 15, 30, 25, 27] = Except.ok (h1, s1) ∧
      set.find h1 s1 5 = Except.ok it5 ∧ set.iterEq it5 set.endIt = false ∧
      set.erase h1 s1 20 = Except.ok (h2, s2, 1) ∧
      set.find h2 s2 5 = Except.ok set.endIt ∧
      set.find h2 s2 20 = Except.error Fault.danglingDeref :=
  ⟨_, _, _, _, _, rfl, rfl, rfl, rfl, rfl, rfl⟩

/-- The half of the `set::erase(const T &)` contract that the defects of `BST::erase` do
not touch: on a well-formed ordered tree, erasing a value that is not an element returns
0 and changes neither the heap nor the set. -/
theorem set.erase_absent [LinearOrder α] (h : Heap α) (s : set) (sh : Shape α) (t : α)
    (hwf : WellFormed h s.bst sh) (ho : sh.Ordered) (ht : t ∉ sh.inorder) :
    set.erase h s t = Except.ok (h, s, 0) := by
  have hfind : set.find h s t = Except.ok ⟨none⟩ := by
    unfold set.find
    rw [BST.find_spec t hwf, (Shape.lookup_none_iff t sh ho).mpr ht]
  simp [set.erase, hfind, set.iterEq, set.endIt, BST.endIt]

/-! ## swap, iterator equality, initializer lists, move insert, erase of `end()` -/

/-- C13: `A.swap(B)` leaves `A` with the former root and count of `B` and `B` with those
of `A`; it does not take the heap, so no node changes; swapping twice restores both. -/
theorem swap_contract (a b : BST) :
    (BST.swap a b).1 = b ∧ (BST.swap a b).2 = a ∧
      BST.swap (BST.swap a b).1 (BST.swap a b).2 = (a, b) := by
  cases a; cases b
  exact ⟨rfl, rfl, rfl⟩

/-- C16 (defect of `iterator::operator==`): the past-the-end iterator compares equal to an
iterator that references a node when it is the left operand, and unequal when it is the
right operand, while `operator!=` compares the two pointers only. -/
theorem iterator_eq_null_left (a : Nat) :
    iterator.eq BST.endIt ⟨some a⟩ = true ∧ iterator.eq ⟨some a⟩ BST.endIt = false ∧
      iterator.ne BST.endIt ⟨some a⟩ = true := by
  simp [iterator.eq, iterator.ne, BST.endIt]

/-- C17 (defect of the initializer-list constructor and assignment of `set`): both call
`bst.insert(element)` with `keepUnique = false`, so the list 1, 1 gives a set of size 2
that holds 1 twice, while `set::insert` of 1, 1 gives size 1. -/
theorem set_of_list_keeps_duplicates :
    (∃ h1 s1, set.ofList (Heap.empty : Heap Nat) [1, 1] = Except.ok (h1, s1) ∧ s1.size = 2 ∧
      s1.bst.root = some 0 ∧ h1.cells 0 = some ⟨1, none, some 1, none⟩ ∧
      h1.cells 1 = some ⟨1, none, none, some 0⟩) ∧
    (∃ h2 s2, set.assignList (Heap.empty : Heap Nat) ⟨BST.mk0⟩ [1, 1] = Except.ok (h2, s2) ∧
      s2.size = 2) ∧
    (∃ h3 s3, set.insertAll (Heap.empty : Heap Nat) ⟨BST.mk0⟩ [1, 1] = Except.ok (h3, s3) ∧
      s3.size = 1) :=
  ⟨⟨_, _, rfl, rfl, rfl, rfl, rfl⟩, ⟨_, _, rfl, rfl⟩, ⟨_, _, rfl, rfl⟩⟩

/-- The two descents agree: `_insertMove` computes what `_insert` computes. -/
theorem _insertMove_eq [LinearOrder α] (t : α) (k : Bool) :
    ∀ (fuel : Nat) (h : Heap α) (p : Ptr), _insertMove fuel h p t k = _insert fuel h p t k := by
  intro fuel
  induction fuel with
  | zero => intro h p; rfl
  | succ fuel ih =>
    intro h p
    simp only [_insertMove, _insert, ih]
    rfl

/-- On a tree that has a root the moving overload of `insert` is the copying one. -/
theorem BST.insertMove_eq [LinearOrder α] (h : Heap α) (b : BST) (t : α) (k : Bool)
    (hr : b.root.isSome = true) : b.insertMove h t k = b.insert h t k := by
  simp only [BST.insertMove, BST.insert, hr, if_true, _insertMove_eq]

/-- C18 (defect of `insert(T &&, bool)`): it has no branch for the empty tree; on an empty
tree it passes the null root to `_insertMove`, which dereferences it, with either flag,
while the copying overload makes the value the root with `size() == 1`. -/
theorem insert_move_on_empty_tree :
    BST.insertMove (Heap.empty : Heap Nat) BST.mk0 5 false = Except.error Fault.nullDeref ∧
    BST.insertMove (Heap.empty : Heap Nat) BST.mk0 5 true = Except.error Fault.nullDeref ∧
    ∃ h1 b1 it, BST.insert (Heap.empty : Heap Nat) BST.mk0 5 false =
        Except.ok (h1, b1, it, true) ∧ b1.size = 1 ∧ it.pNode = b1.root :=
  ⟨rfl, rfl, _, _, _, rfl, rfl, rfl⟩

/-- C19: `erase` of the past-the-end iterator returns at once: the heap (every node and
link), the root and `size()` are unchanged and the returned iterator is past-the-end. -/
theorem erase_end_noop [DecidableEq α] (h : Heap α) (b : BST) :
    b.erase h BST.endIt = Except.ok (h, b, BST.endIt) := rfl

theorem wf53 : WellFormed heap53 tree53 shape53 :=
  ⟨rfl, ⟨rfl, ⟨rfl, trivial, trivial⟩, trivial⟩, by decide,
   by simp [shape53, Shape.addrs, heap53], rfl⟩

/-- C20 (defect of `operator++`, the one of C4): in every well-formed tree whose root has
no right child the root is the last node in in-order, and `++` on an iterator at the root
dereferences the null parent of the root instead of moving to past-the-end. -/
theorem increment_at_last_root (h : Heap α) (b : BST) (l : Shape α) (a : Nat) (v : α)
    (hwf : WellFormed h b (Shape.node l a v Shape.nil)) :
    (Shape.node l a v Shape.nil).addrs.getLast? = some a ∧
      iterator.incr h ⟨some a⟩ = Except.error Fault.nullDeref := by
  have hc : h.cells a = some ⟨v, l.ptr, none, none⟩ := hwf.rep.1
  refine ⟨by simp [Shape.addrs], ?_⟩
  simp only [iterator.incr, Heap.read_some hc, ok_bind]
  rfl

/-- Instance of C20: the tree 5, 3, whose root 5 is the last node. -/
theorem increment_at_last_root_witness :
    WellFormed heap53 tree53 (Shape.node (Shape.node Shape.nil 1 3 Shape.nil) 0 5 Shape.nil) ∧
      (Shape.node (Shape.node Shape.nil 1 3 Shape.nil) 0 5 Shape.nil).addrs.getLast? = some 0 ∧
      iterator.incr heap53 ⟨some 0⟩ = Except.error Fault.nullDeref :=
  ⟨wf53, increment_at_last_root heap53 tree53 _ 0 5 wf53⟩

/-- Once the loop iterator is null and `itEnd` references a node, the loop of the range
erase never ends: `erase` of a null iterator changes nothing. -/
theorem set.eraseRangeLoop_null [LinearOrder α] (p : Nat) :
    ∀ (fuel : Nat) (h : Heap α) (s : set),
      set.eraseRangeLoop fuel h s ⟨none⟩ ⟨some p⟩ = Except.error Fault.outOfFuel := by
  intro fuel
  induction fuel with
  | zero => intro h s; rfl
  | succ fuel ih =>
    intro h s
    have hne : (none : Ptr) ≠ some p := by simp
    simp only [set.eraseRangeLoop, ne_eq, reduceCtorEq, not_false_eq_true, if_true]
    simp only [set.eraseIt, BST.erase, pure_ok, ok_bind]
    exact ih h s

/-- C11 (defect of the range erase): `BST::erase` returns the nulled iterator, not the
next one.  In the set built from 2, 1, 3, `erase(begin(), end())` removes only the first
element (size 2 instead of 0), and `erase(find(1), find(3))` never leaves its loop: no
amount of fuel gives a result. -/
theorem set_erase_range_defects :
    ∃ h s itB it1 it3, set.insertAll (Heap.empty : Heap Nat) ⟨BST.mk0⟩ [2, 1, 3] =
        Except.ok (h, s) ∧
      s.size = 3 ∧ set.begin h s = Except.ok itB ∧
      (∃ h1 s1, set.eraseRange 4 h s itB set.endIt = Except.ok (h1, s1, set.endIt) ∧
        s1.size = 2 ∧ h1.cells 0 = some ⟨2, none, some 2, none⟩ ∧
        h1.cells 2 = some ⟨3, none, none, some 0⟩) ∧
      set.find h s 1 = Except.ok it1 ∧ set.find h s 3 = Except.ok it3 ∧
      ∀ fuel, set.eraseRange fuel h s it1 it3 = Except.error Fault.outOfFuel := by
  refine ⟨_, _, _, _, _, rfl, rfl, rfl, ⟨_, _, rfl, rfl, rfl, rfl⟩, rfl, rfl, ?_⟩
  intro fuel
  cases fuel with
  | zero => rfl
  | succ fuel => exact set.eraseRangeLoop_null 2 fuel _ _

/-! ## begin -/

/-- The loop `leftmost` on a held non-empty shape stops at the first node in in-order,
which has no left child and holds the first value of the in-order sequence. -/
theorem leftmost_rep {h : Heap α} :
    ∀ (s : Shape α) (par : Ptr) (fuel : Nat), Rep h par s → s ≠ Shape.nil → s.size ≤ fuel →
      ∃ a n, leftmost fuel h s.ptr = Except.ok (some a) ∧ s.addrs.head? = some a ∧
        h.cells a = some n ∧ n.pLeft = none ∧ s.inorder.head? = some n.data := by
  intro s
  induction s with
  | nil => intro _ _ _ hne; exact absurd rfl hne
  | node l p v r ihl _ =>
    intro par fuel hrep _ hf
    obtain ⟨hc, hl, _⟩ := hrep
    cases fuel with
    | zero => simp [Shape.size] at hf
    | succ fuel =>
      simp only [Shape.size] at hf
      have hptr : (Shape.node l p v r).ptr = some p := rfl
      simp only [hptr, leftmost, Heap.read_some hc, ok_bind]
      by_cases h3 : l = Shape.nil
      · subst h3
        refine ⟨p, _, ?_, ?_, hc, rfl, ?_⟩
        · simp [Shape.ptr]
        · simp [Shape.addrs]
        · simp [Shape.inorder]
      · have hsome : l.ptr.isSome = true := (Shape.ptr_isSome_iff l).mpr h3
        obtain ⟨a, n, e1, e2, e3, e4, e5⟩ := ihl (some p) fuel hl h3 (by omega)
        refine ⟨a, n, ?_, ?_, e3, e4, ?_⟩
        · simp only [hsome, if_true]; exact e1
        · simp only [Shape.addrs]
          rw [List.head?_append_of_ne_nil]
          · exact e2
          · intro hnil; rw [hnil] at e2; simp at e2
        · simp only [Shape.inorder]
          rw [List.head?_append_of_ne_nil]
          · exact e5
          · intro hnil; rw [hnil] at e5; simp at e5

/-- Function `BST::begin` on a well-formed tree: the past-the-end iterator for the tree
without nodes, otherwise an iterator at the first node in in-order. -/
theorem BST.begin_spec {h : Heap α} {b : BST} {s : Shape α} (hwf : WellFormed h b s) :
    ∃ it, b.begin h = Except.ok it ∧ (it = BST.endIt ↔ s = Shape.nil) ∧
      (s ≠ Shape.nil → ∃ a n, it.pNode = some a ∧ s.addrs.head? = some a ∧
        h.cells a = some n ∧ n.pLeft = none ∧ s.inorder.head? = some n.data) := by
  obtain ⟨hroot, hrep, hnd, hb, hcount⟩ := hwf
  by_cases hs : s = Shape.nil
  · subst hs
    refine ⟨BST.endIt, ?_, by simp, fun hne => absurd rfl hne⟩
    simp [BST.begin, BST.empty, hcount, Shape.size]
  · have hpos : 0 < s.size := by
      cases s with
      | nil => exact absurd rfl hs
      | node l p v r => simp [Shape.size]
    obtain ⟨a, n, e1, e2, e3, e4, e5⟩ := leftmost_rep s none h.fuel hrep hs
      (Nat.le_succ_of_le (Shape.size_le_next _ _ hnd hb))
    refine ⟨⟨some a⟩, ?_, ?_, fun _ => ⟨a, n, rfl, e2, e3, e4, e5⟩⟩
    · have hne : (b.numElements == 0) = false := by
        rw [hcount]; simp; omega
      simp [BST.begin, BST.empty, hne, hroot, e1]
    · simp [BST.endIt, hs]

theorem List.Sorted.head_le {β : Type} [Preorder β] {l : List β} {m : β}
    (hs : l.Sorted (fun x y => x ≤ y)) (hm : l.head? = some m) : ∀ x ∈ l, m ≤ x := by
  cases l with
  | nil => simp at hm
  | cons y ys =>
    simp only [List.head?_cons, Option.some.injEq] at hm
    subst hm
    intro x hx
    rcases List.mem_cons.mp hx with rfl | hx
    · exact le_refl _
    · exact List.rel_of_sorted_cons hs x hx

/-- Every sequence of inserts into an empty tree returns a well-formed ordered tree with
a sorted in-order sequence. -/
theorem insert_sequence_ordered_aux [LinearOrder α] (h0 : Heap α) (ops : List (α × Bool)) :
    ∃ h1 b1 s1, BST.insertAll h0 BST.mk0 ops = Except.ok (h1, b1) ∧ WellFormed h1 b1 s1 ∧
      s1.Ordered ∧ s1.inorder.Sorted (fun x y => x ≤ y) := by
  have hwf : WellFormed h0 BST.mk0 (Shape.nil : Shape α) :=
    ⟨rfl, trivial, List.nodup_nil, by simp [Shape.addrs], rfl⟩
  obtain ⟨h1, b1, s1, e1, e2, e3⟩ := BST.insertAll_spec ops h0 BST.mk0 Shape.nil hwf trivial
  exact ⟨h1, b1, s1, e1, e2, e3, Shape.Ordered.sorted s1 e3⟩

/-- C15: for every tree built by inserts into an empty tree, `begin()` returns; it is the
past-the-end iterator exactly when the tree has no element; otherwise it references the
first node of the in-order sequence, which has no left child and whose value is the first
element of the in-order sequence and a minimum of the tree.  `end()` is the null iterator. -/
theorem begin_contract [LinearOrder α] (h0 : Heap α) (ops : List (α × Bool)) :
    ∃ h1 b1 s1 it, BST.insertAll h0 BST.mk0 ops = Except.ok (h1, b1) ∧ WellFormed h1 b1 s1 ∧
      b1.begin h1 = Except.ok it ∧
      (it = BST.endIt ↔ s1.inorder = []) ∧ (it = BST.endIt ↔ b1.size = 0) ∧
      (it ≠ BST.endIt → ∃ a n, it.pNode = some a ∧ s1.addrs.head? = some a ∧
        h1.cells a = some n ∧ n.pLeft = none ∧ s1.inorder.head? = some n.data ∧
        ∀ x ∈ s1.inorder, n.data ≤ x) ∧
      BST.endIt = ⟨none⟩ := by
  obtain ⟨h1, b1, s1, e1, e2, e3, e4⟩ := insert_sequence_ordered_aux h0 ops
  obtain ⟨it, f1, f2, f3⟩ := BST.begin_spec e2
  have hnil : s1 = Shape.nil ↔ s1.inorder = [] := by
    cases s1 with
    | nil => simp [Shape.inorder]
    | node l p v r => simp [Shape.inorder]
  have hsz : s1 = Shape.nil ↔ b1.size = 0 := by
    unfold BST.size
    rw [e2.count]
    cases s1 with
    | nil => simp [Shape.size]
    | node l p v r => simp [Shape.size]
  refine ⟨h1, b1, s1, it, e1, e2, f1, f2.trans hnil, f2.trans hsz, ?_, rfl⟩
  intro hne
  obtain ⟨a, n, g1, g2, g3, g4, g5⟩ := f3 (fun hs => hne (f2.mpr hs))
  exact ⟨a, n, g1, g2, g3, g4, g5, List.Sorted.head_le e4 g5⟩

/-! ## Slots and clear -/

theorem Heap.read_ok_iff {h : Heap α} {p : Ptr} {n : BNode α} :
    h.read p = Except.ok n ↔ ∃ a, p = some a ∧ h.cells a = some n := by
  cases p with
  | none => simp [Heap.read]
  | some a =>
    simp only [Heap.read, Option.some.injEq, exists_eq_left']
    cases hc : h.cells a <;> simp

theorem Slot.get_left {h : Heap α} {root : Ptr} {d : Nat} {n : BNode α}
    (hc : h.cells d = some n) : (Slot.left d).get h root = Except.ok n.pLeft := by
  simp [Slot.get, Heap.read_some hc]

theorem Slot.get_right {h : Heap α} {root : Ptr} {d : Nat} {n : BNode α}
    (hc : h.cells d = some n) : (Slot.right d).get h root = Except.ok n.pRight := by
  simp [Slot.get, Heap.read_some hc]

/-- A slot that can be read lives in a live node. -/
theorem Slot.get_live {h : Heap α} {root v : Ptr} {σ : Slot} (hg : σ.get h root = Except.ok v) :
    ∀ d, σ.node = some d → ∃ n, h.cells d = some n := by
  intro d hd
  cases σ with
  | root => simp [Slot.node] at hd
  | left a =>
    simp only [Slot.node, Option.some.injEq] at hd
    subst hd
    cases hc : h.cells a with
    | none => simp [Slot.get, Heap.read, hc] at hg
    | some n => exact ⟨n, rfl⟩
  | right a =>
    simp only [Slot.node, Option.some.injEq] at hd
    subst hd
    cases hc : h.cells a with
    | none => simp [Slot.get, Heap.read, hc] at hg
    | some n => exact ⟨n, rfl⟩

/-- Reading a slot depends only on `root` and on the node that holds the slot. -/
theorem Slot.get_frame {h h1 : Heap α} {root : Ptr} {σ : Slot}
    (hag : ∀ d, σ.node = some d → h1.cells d = h.cells d) :
    σ.get h1 root = σ.get h root := by
  cases σ with
  | root => rfl
  | left a => simp [Slot.get, Heap.read, hag a rfl]
  | right a => simp [Slot.get, Heap.read, hag a rfl]

/-- A state in which the slot already holds `v` is the state after storing `v`. -/
theorem Slot.Stored.of_get {h : Heap α} {root v : Ptr} {σ : Slot}
    (hg : σ.get h root = Except.ok v) : σ.Stored h root h root v := by
  cases σ with
  | root => simpa [Slot.get] using hg
  | left a =>
    cases hc : h.cells a with
    | none => simp [Slot.get, Heap.read, hc] at hg
    | some n =>
      simp only [Slot.get, Heap.read_some hc, ok_bind, pure_ok, Except.ok.injEq] at hg
      refine ⟨rfl, n, hc, ?_⟩
      rw [hc]; cases n; simp_all
  | right a =>
    cases hc : h.cells a with
    | none => simp [Slot.get, Heap.read, hc] at hg
    | some n =>
      simp only [Slot.get, Heap.read_some hc, ok_bind, pure_ok, Except.ok.injEq] at hg
      refine ⟨rfl, n, hc, ?_⟩
      rw [hc]; cases n; simp_all

/-- Storing into a slot of a live node. -/
theorem Slot.set_spec (h : Heap α) (root : Ptr) {σ : Slot} (v : Ptr)
    (hlive : ∀ d, σ.node = some d → ∃ n, h.cells d = some n) :
    ∃ h1 root1, σ.set h root v = Except.ok (h1, root1) ∧ h1.next = h.next ∧
      (∀ x, σ.node ≠ some x → h1.cells x = h.cells x) ∧ σ.Stored h root h1 root1 v := by
  cases σ with
  | root => exact ⟨h, v, rfl, rfl, fun _ _ => rfl, rfl⟩
  | left a =>
    obtain ⟨n, hn⟩ := hlive a rfl
    refine ⟨h.store a { n with pLeft := v }, root, ?_, rfl, ?_, rfl, n, hn, by simp⟩
    · simp [Slot.set, Heap.modify_some hn]
    · intro x hx
      simp only [Slot.node, ne_eq, Option.some.injEq] at hx
      exact Heap.store_cells_other h _ (fun e => hx e.symm)
  | right a =>
    obtain ⟨n, hn⟩ := hlive a rfl
    refine ⟨h.store a { n with pRight := v }, root, ?_, rfl, ?_, rfl, n, hn, by simp⟩
    · simp [Slot.set, Heap.modify_some hn]
    · intro x hx
      simp only [Slot.node, ne_eq, Option.some.injEq] at hx
      exact Heap.store_cells_other h _ (fun e => hx e.symm)

/-- The relation `Stored` only looks at the node that holds the slot in the earlier
state. -/
theorem Slot.Stored.earlier {h h0 h1 : Heap α} {root root1 v : Ptr} {σ : Slot}
    (hs : σ.Stored h0 root h1 root1 v) (hag : ∀ d, σ.node = some d → h0.cells d = h.cells d) :
    σ.Stored h root h1 root1 v := by
  cases σ with
  | root => exact hs
  | left a =>
    obtain ⟨e1, n, e2, e3⟩ := hs
    exact ⟨e1, n, by rw [← hag a rfl]; exact e2, e3⟩
  | right a =>
    obtain ⟨e1, n, e2, e3⟩ := hs
    exact ⟨e1, n, by rw [← hag a rfl]; exact e2, e3⟩

theorem Slot.left_node_ne {a x : Nat} (hx : x ≠ a) : (Slot.left a).node ≠ some x := by
  simp only [Slot.node, ne_eq, Option.some.injEq]
  exact fun e => hx e.symm

theorem Slot.right_node_ne {a x : Nat} (hx : x ≠ a) : (Slot.right a).node ≠ some x := by
  simp only [Slot.node, ne_eq, Option.some.injEq]
  exact fun e => hx e.symm

/-- Function `_clear` on a held shape: it returns, every node of the shape is deleted, the
slot holds `nullptr` afterwards and nothing else changes. -/
theorem _clear_rep : ∀ (s : Shape α) (par : Ptr) (fuel : Nat) (h : Heap α) (root : Ptr)
    (σ : Slot), Rep h par s → s.addrs.Nodup → σ.get h root = Except.ok s.ptr →
    (∀ d, σ.node = some d → d ∉ s.addrs) → s.size + 1 ≤ fuel →
    ∃ h1 root1, _clear fuel h root σ = Except.ok (h1, root1) ∧ h1.next = h.next ∧
      (∀ x ∈ s.addrs, h1.cells x = none) ∧
      (∀ x, x ∉ s.addrs → σ.node ≠ some x → h1.cells x = h.cells x) ∧
      σ.Stored h root h1 root1 none := by
  intro s
  induction s with
  | nil =>
    intro par fuel h root σ _ _ hg _ hf
    cases fuel with
    | zero => omega
    | succ fuel =>
      refine ⟨h, root, ?_, rfl, by simp [Shape.addrs], fun _ _ _ => rfl, Slot.Stored.of_get hg⟩
      simp only [_clear, hg, ok_bind, Shape.ptr]
      rfl
  | node l a v r ihl ihr =>
    intro par fuel h root σ hrep hnd hg hσ hf
    obtain ⟨hc, hl, hr⟩ := hrep
    obtain ⟨hndl, hndr, hal, har, hdis⟩ := Shape.nodup_node hnd
    cases fuel with
    | zero => omega
    | succ fuel =>
      simp only [Shape.size] at hf
      have hσa : σ.node ≠ some a := fun e => hσ a e (by simp [Shape.addrs])
      have hσl : ∀ d, σ.node = some d → d ∉ l.addrs :=
        fun d hd hm => hσ d hd (by simp [Shape.addrs, hm])
      have hσr : ∀ d, σ.node = some d → d ∉ r.addrs :=
        fun d hd hm => hσ d hd (by simp [Shape.addrs, hm])
      -- the left subtree
      obtain ⟨h1, root1, e1, n1, f1, g1, s1⟩ := ihl (some a) fuel h root (Slot.left a) hl hndl
        (Slot.get_left hc) (by intro d hd; simp only [Slot.node, Option.some.injEq] at hd
                               subst hd; exact hal) (by omega)
      obtain ⟨hr1, na, hna, hca1⟩ := s1
      rw [hc] at hna
      simp only [Option.some.injEq] at hna
      subst hna
      simp only at hca1
      rw [hr1] at e1
      have hg1 : σ.get h1 root = Except.ok (some a) := by
        rw [Slot.get_frame (h := h)]
        · exact hg
        · intro d hd
          exact g1 d (hσl d hd) (Slot.left_node_ne (fun e => hσa (e ▸ hd)))
      -- the right subtree
      have hrr1 : Rep h1 (some a) r := Rep.frame hr (fun x hx =>
        g1 x (fun hm => hdis x hm hx) (Slot.left_node_ne (fun e => har (e ▸ hx))))
      obtain ⟨h2, root2, e2, n2, f2, g2, s2⟩ := ihr (some a) fuel h1 root (Slot.right a) hrr1 hndr
        (Slot.get_right hca1) (by intro d hd; simp only [Slot.node, Option.some.injEq] at hd
                                  subst hd; exact har) (by omega)
      obtain ⟨hr2, nb, hnb, hca2⟩ := s2
      rw [hca1] at hnb
      simp only [Option.some.injEq] at hnb
      subst hnb
      simp only at hca2
      rw [hr2] at e2
      have hag2 : ∀ d, σ.node = some d → h2.cells d = h.cells d := by
        intro d hd
        have hda : d ≠ a := fun e => hσa (e ▸ hd)
        rw [g2 d (hσr d hd) (Slot.right_node_ne hda),
            g1 d (hσl d hd) (Slot.left_node_ne hda)]
      have hg2 : σ.get h2 root = Except.ok (some a) := by
        rw [Slot.get_frame hag2]; exact hg
      -- delete, then store the null pointer
      let h3 : Heap α := ⟨fun x => if x = a then none else h2.cells x, h2.next⟩
      have hfree : h2.free (some a) = Except.ok h3 := by simp [Heap.free, hca2, h3]
      have hag3 : ∀ d, σ.node = some d → h3.cells d = h.cells d := by
        intro d hd
        have hda : d ≠ a := fun e => hσa (e ▸ hd)
        simp only [h3, if_neg hda]
        exact hag2 d hd
      have hlive3 : ∀ d, σ.node = some d → ∃ n, h3.cells d = some n := by
        intro d hd
        rw [hag3 d hd]
        exact Slot.get_live hg d hd
      obtain ⟨h4, root4, e4, n4, g4, s4⟩ := Slot.set_spec h3 root none hlive3
      refine ⟨h4, root4, ?_, ?_, ?_, ?_, Slot.Stored.earlier s4 hag3⟩
      · have hptr : (Shape.node l a v r).ptr = some a := rfl
        simp only [_clear, hg, hptr, ok_bind, Slot.leftOf, pure_ok, e1, hg1, Slot.rightOf, e2,
          hg2, hfree, e4]
      · rw [n4]; show h2.next = h.next; rw [n2, n1]
      · intro x hx
        have hxσ : σ.node ≠ some x := fun e => hσ x e hx
        rw [g4 x hxσ]
        simp only [Shape.addrs, List.mem_append, List.mem_cons] at hx
        by_cases hxa : x = a
        · simp [h3, hxa]
        · simp only [h3, if_neg hxa]
          rcases hx with hx | hx | hx
          · rw [g2 x (fun hm => hdis x hx hm) (Slot.right_node_ne hxa)]
            exact f1 x hx
          · exact absurd hx hxa
          · exact f2 x hx
      · intro x hx hxσ
        simp only [Shape.addrs, List.mem_append, List.mem_cons, not_or] at hx
        rw [g4 x hxσ]
        simp only [h3, if_neg hx.2.1]
        rw [g2 x hx.2.2 (Slot.right_node_ne hx.2.1),
            g1 x hx.1 (Slot.left_node_ne hx.2.1)]

theorem wfTwo53 : WellFormed heapTwo tree53 shape53 :=
  ⟨rfl, ⟨rfl, ⟨rfl, trivial, trivial⟩, trivial⟩, by decide,
   by simp [shape53, Shape.addrs, heapTwo], rfl⟩

theorem wfTwo7 : WellFormed heapTwo tree7 shape7 :=
  ⟨rfl, ⟨rfl, trivial, trivial⟩, by decide, by simp [shape7, Shape.addrs, heapTwo], rfl⟩

/-- Function `BST::clear` on a well-formed tree: it returns the empty tree, every node of
the tree is deleted and no other cell changes. -/
theorem BST.clear_spec {h : Heap α} {b : BST} {s : Shape α} (hwf : WellFormed h b s) :
    ∃ h1, b.clear h = Except.ok (h1, ⟨none, 0⟩) ∧ h1.next = h.next ∧
      (∀ x ∈ s.addrs, h1.cells x = none) ∧ (∀ x, x ∉ s.addrs → h1.cells x = h.cells x) := by
  obtain ⟨hroot, hrep, hnd, hb, _⟩ := hwf
  obtain ⟨h1, root1, e1, e2, e3, e4, e5⟩ := _clear_rep s none h.fuel h b.root Slot.root hrep hnd
    (by rw [hroot]; rfl) (by intro d hd; simp [Slot.node] at hd)
    (Nat.succ_le_succ (Shape.size_le_next _ _ hnd hb))
  have hr : root1 = none := e5
  subst hr
  refine ⟨h1, ?_, e2, e3, fun x hx => e4 x hx (by simp [Slot.node])⟩
  simp [BST.clear, e1]

/-- C14: the move assignment `A = std::move(B)` on a well-formed `A` returns; `A` then has
the former root and count of `B`, the nodes that `A` held are deleted and no other cell
changes, and `B` is empty: no root, `size() == 0` and `begin() == end()`.  The move
constructor gives the same from a fresh object and leaves the heap as it is. -/
theorem move_assign_contract (h : Heap α) (a b : BST) (sa : Shape α)
    (hwa : WellFormed h a sa) :
    (∃ h1 b1 it, BST.moveAssign h a b = Except.ok (h1, b, b1) ∧
      (∀ x ∈ sa.addrs, h1.cells x = none) ∧ (∀ x, x ∉ sa.addrs → h1.cells x = h.cells x) ∧
      b1.root = none ∧ b1.size = 0 ∧
      b1.begin h1 = Except.ok it ∧ iterator.eq it BST.endIt = true) ∧
    (∃ b1 it, BST.move h b = Except.ok (h, b, b1) ∧ b1.root = none ∧ b1.size = 0 ∧
      b1.begin h = Except.ok it ∧ iterator.eq it BST.endIt = true) := by
  constructor
  · obtain ⟨h1, e1, _, e3, e4⟩ := BST.clear_spec hwa
    refine ⟨h1, ⟨none, 0⟩, BST.endIt, ?_, e3, e4, rfl, rfl, rfl, rfl⟩
    simp only [BST.moveAssign, e1, ok_bind]
    cases b
    rfl
  · refine ⟨⟨none, 0⟩, BST.endIt, ?_, rfl, rfl, rfl, rfl⟩
    cases b
    rfl

/-- Instance of C14: moving the tree 7 into the tree 5, 3 of `heapTwo`. -/
theorem move_assign_contract_witness :
    WellFormed heapTwo tree53 shape53 ∧
    (∃ h1 b1 it, BST.moveAssign heapTwo tree53 tree7 = Except.ok (h1, tree7, b1) ∧
      (∀ x ∈ shape53.addrs, h1.cells x = none) ∧
      (∀ x, x ∉ shape53.addrs → h1.cells x = heapTwo.cells x) ∧
      b1.root = none ∧ b1.size = 0 ∧
      b1.begin h1 = Except.ok it ∧ iterator.eq it BST.endIt = true) ∧
    (∃ b1 it, BST.move heapTwo tree7 = Except.ok (heapTwo, tree7, b1) ∧ b1.root = none ∧
      b1.size = 0 ∧ b1.begin heapTwo = Except.ok it ∧ iterator.eq it BST.endIt = true) :=
  ⟨wfTwo53, move_assign_contract heapTwo tree53 tree7 shape53 wfTwo53⟩

/-! ## Copy assignment -/

theorem Shape.Same.inorder_eq : ∀ {s d : Shape α}, Shape.Same s d → d.inorder = s.inorder
  | Shape.nil, Shape.nil, _ => rfl
  | Shape.nil, Shape.node _ _ _ _, hs => absurd hs (by simp [Shape.Same])
  | Shape.node _ _ _ _, Shape.nil, hs => absurd hs (by simp [Shape.Same])
  | Shape.node l _ v r, Shape.node l1 _ v1 r1, hs => by
    obtain ⟨h1, h2, h3⟩ := hs
    simp [Shape.inorder, h1, Shape.Same.inorder_eq h2, Shape.Same.inorder_eq h3]

theorem Shape.Same.size_eq {s d : Shape α} (hs : Shape.Same s d) : d.size = s.size := by
  rw [← Shape.length_inorder, ← Shape.length_inorder, hs.inorder_eq]

/-- Setting the parent link of the root of a held shape, as the two closing statements of
`_assign` do. -/
theorem Rep.reparent {h : Heap α} {t : Shape α} {par0 : Ptr} (q : Ptr) (hrep : Rep h par0 t)
    (hnd : t.addrs.Nodup) :
    ∃ h1, (if t.ptr.isSome then h.modify t.ptr (fun c => { c with pParent := q })
           else pure h) = Except.ok h1 ∧
      Rep h1 q t ∧ h1.next = h.next ∧ ∀ x, t.ptr ≠ some x → h1.cells x = h.cells x := by
  cases t with
  | nil => exact ⟨h, rfl, trivial, rfl, fun _ _ => rfl⟩
  | node l a v r =>
    obtain ⟨hc, hl, hr⟩ := hrep
    obtain ⟨_, _, hal, har, _⟩ := Shape.nodup_node hnd
    refine ⟨h.store a ⟨v, l.ptr, r.ptr, q⟩, ?_, ⟨by simp, ?_, ?_⟩, rfl, ?_⟩
    · simp [Shape.ptr, Heap.modify_some hc]
    · exact Rep.frame hl (fun x hx => Heap.store_cells_other h _ (fun e => hal (e ▸ hx)))
    · exact Rep.frame hr (fun x hx => Heap.store_cells_other h _ (fun e => har (e ▸ hx)))
    · intro x hx
      simp only [Shape.ptr, ne_eq, Option.some.injEq] at hx
      exact Heap.store_cells_other h _ (fun e => hx e.symm)

theorem Shape.mem_addrs_node {l r : Shape α} {a x : Nat} {v : α} :
    x ∈ (Shape.node l a v r).addrs ↔ x ∈ l.addrs ∨ x = a ∨ x ∈ r.addrs := by
  simp [Shape.addrs]

/-- The common part of `_assign` on a source node: given a destination node `d` that
already carries the value, with children `dl` and `dr`, the two recursive calls and the
two closing statements leave a copy of the source below `d`. -/
theorem assignRest_spec (recur : Heap α → Ptr → Slot → Ptr → Except Fault (Heap α × Ptr))
    (fuel : Nat) (sl sr : Shape α) (s : Nat) (v : α) (parS : Ptr)
    (hL : AssignSpec recur fuel sl (some s)) (hR : AssignSpec recur fuel sr (some s))
    (dl dr : Shape α) (d : Nat) (pp : Ptr) (h : Heap α) (root : Ptr) (σ : Slot)
    (hsrc : Rep h parS (Shape.node sl s v sr))
    (hd : h.cells d = some ⟨v, dl.ptr, dr.ptr, pp⟩)
    (hdl : Rep h (some d) dl) (hdr : Rep h (some d) dr)
    (hnd : (Shape.node dl d v dr).addrs.Nodup)
    (hdis : ∀ x ∈ (Shape.node sl s v sr).addrs, x ∉ (Shape.node dl d v dr).addrs)
    (hbs : ∀ x ∈ (Shape.node sl s v sr).addrs, x < h.next)
    (hbd : ∀ x ∈ (Shape.node dl d v dr).addrs, x < h.next)
    (hg : σ.get h root = Except.ok (some d))
    (hσ : ∀ e, σ.node = some e → e ∉ (Shape.node dl d v dr).addrs ∧
      e ∉ (Shape.node sl s v sr).addrs ∧ e < h.next)
    (hf : sl.size + sr.size + (dl.size + dr.size) + 1 ≤ fuel) :
    ∃ h1 l1 r1, assignRest recur h root σ (some s) = Except.ok (h1, root) ∧
      h.next ≤ h1.next ∧ Rep h1 pp (Shape.node l1 d v r1) ∧ Shape.Same sl l1 ∧
      Shape.Same sr r1 ∧ (Shape.node l1 d v r1).addrs.Nodup ∧
      (∀ x ∈ (Shape.node l1 d v r1).addrs,
        x ∈ (Shape.node dl d v dr).addrs ∨ (h.next ≤ x ∧ x < h1.next)) ∧
      (∀ x, x ∉ (Shape.node dl d v dr).addrs → x < h.next → h1.cells x = h.cells x) := by
  obtain ⟨hsc, hsl, hsr⟩ := hsrc
  obtain ⟨hndl, hndr, hddl, hddr, hdd⟩ := Shape.nodup_node hnd
  have hdn : d < h.next := hbd d (Shape.mem_addrs_node.mpr (Or.inr (Or.inl rfl)))
  have hsd : s ≠ d := fun e =>
    hdis s (Shape.mem_addrs_node.mpr (Or.inr (Or.inl rfl)))
      (Shape.mem_addrs_node.mpr (Or.inr (Or.inl e)))
  have hsn : s < h.next := hbs s (Shape.mem_addrs_node.mpr (Or.inr (Or.inl rfl)))
  have hs_dl : s ∉ dl.addrs := fun hm =>
    hdis s (Shape.mem_addrs_node.mpr (Or.inr (Or.inl rfl))) (Shape.mem_addrs_node.mpr (Or.inl hm))
  have hs_dr : s ∉ dr.addrs := fun hm =>
    hdis s (Shape.mem_addrs_node.mpr (Or.inr (Or.inl rfl)))
      (Shape.mem_addrs_node.mpr (Or.inr (Or.inr hm)))
  have hσd : ∀ e, σ.node = some e → e ≠ d := fun e he hed =>
    (hσ e he).1 (Shape.mem_addrs_node.mpr (Or.inr (Or.inl hed)))
  have hσdl : ∀ e, σ.node = some e → e ∉ dl.addrs := fun e he hm =>
    (hσ e he).1 (Shape.mem_addrs_node.mpr (Or.inl hm))
  have hσdr : ∀ e, σ.node = some e → e ∉ dr.addrs := fun e he hm =>
    (hσ e he).1 (Shape.mem_addrs_node.mpr (Or.inr (Or.inr hm)))
  -- the right child
  obtain ⟨h1, root1, r1, e1, n1, rep1, same1, nd1, ad1, fr1, st1⟩ :=
    hR dr (some d) h root (Slot.right d) hsr hdr hndr
      (fun x hx hm => hdis x (Shape.mem_addrs_node.mpr (Or.inr (Or.inr hx)))
        (Shape.mem_addrs_node.mpr (Or.inr (Or.inr hm))))
      (fun x hx => hbs x (Shape.mem_addrs_node.mpr (Or.inr (Or.inr hx))))
      (fun x hx => hbd x (Shape.mem_addrs_node.mpr (Or.inr (Or.inr hx))))
      (Slot.get_right hd)
      (by
        intro e he
        simp only [Slot.node, Option.some.injEq] at he
        subst he
        refine ⟨hddr, ?_, hdn⟩
        intro hm
        exact hdis _ (Shape.mem_addrs_node.mpr (Or.inr (Or.inr hm)))
          (Shape.mem_addrs_node.mpr (Or.inr (Or.inl rfl))))
      (by omega)
  obtain ⟨hroot1, nd0, hnd0, hd1⟩ := st1
  rw [hd] at hnd0
  simp only [Option.some.injEq] at hnd0
  subst hnd0
  simp only at hd1
  rw [hroot1] at e1
  have fr1' : ∀ x, x ∉ dr.addrs → x < h.next → x ≠ d → h1.cells x = h.cells x :=
    fun x h1x h2x h3x => fr1 x h1x h2x (Slot.right_node_ne h3x)
  have hg1 : σ.get h1 root = Except.ok (some d) := by
    rw [Slot.get_frame (h := h)]
    · exact hg
    · intro e he
      exact fr1' e (hσdr e he) (hσ e he).2.2 (hσd e he)
  have hs1 : h1.cells s = some ⟨v, sl.ptr, sr.ptr, parS⟩ := by
    rw [fr1' s hs_dr hsn hsd]; exact hsc
  -- the left child
  have hsl1 : Rep h1 (some s) sl := Rep.frame hsl (fun x hx => by
    have hx' : x ∈ (Shape.node sl s v sr).addrs := Shape.mem_addrs_node.mpr (Or.inl hx)
    refine fr1' x ?_ (hbs x hx') ?_
    · exact fun hm => hdis x hx' (Shape.mem_addrs_node.mpr (Or.inr (Or.inr hm)))
    · exact fun e => hdis x hx' (Shape.mem_addrs_node.mpr (Or.inr (Or.inl e))))
  have hdl1 : Rep h1 (some d) dl := Rep.frame hdl (fun x hx =>
    fr1' x (hdd x hx) (hbd x (Shape.mem_addrs_node.mpr (Or.inl hx))) (fun e => hddl (e ▸ hx)))
  obtain ⟨h2, root2, l1, e2, n2, rep2, same2, nd2, ad2, fr2, st2⟩ :=
    hL dl (some d) h1 root (Slot.left d) hsl1 hdl1 hndl
      (fun x hx hm => hdis x (Shape.mem_addrs_node.mpr (Or.inl hx))
        (Shape.mem_addrs_node.mpr (Or.inl hm)))
      (fun x hx => Nat.lt_of_lt_of_le (hbs x (Shape.mem_addrs_node.mpr (Or.inl hx))) n1)
      (fun x hx => Nat.lt_of_lt_of_le (hbd x (Shape.mem_addrs_node.mpr (Or.inl hx))) n1)
      (Slot.get_left hd1)
      (by
        intro e he
        simp only [Slot.node, Option.some.injEq] at he
        subst he
        refine ⟨hddl, ?_, Nat.lt_of_lt_of_le hdn n1⟩
        intro hm
        exact hdis _ (Shape.mem_addrs_node.mpr (Or.inl hm))
          (Shape.mem_addrs_node.mpr (Or.inr (Or.inl rfl))))
      (by omega)
  obtain ⟨hroot2, nd0, hnd0, hd2⟩ := st2
  rw [hd1] at hnd0
  simp only [Option.some.injEq] at hnd0
  subst hnd0
  simp only at hd2
  rw [hroot2] at e2
  have fr2' : ∀ x, x ∉ dl.addrs → x < h1.next → x ≠ d → h2.cells x = h1.cells x :=
    fun x h1x h2x h3x => fr2 x h1x h2x (Slot.left_node_ne h3x)
  -- facts about the addresses of the two new subtrees
  have hr1_dl : ∀ x ∈ r1.addrs, x ∉ dl.addrs := by
    intro x hx hm
    rcases ad1 x hx with hx1 | hx1
    · exact hdd x hm hx1
    · exact Nat.lt_irrefl _ (Nat.lt_of_lt_of_le
        (hbd x (Shape.mem_addrs_node.mpr (Or.inl hm))) hx1.1)
  have hr1_lt : ∀ x ∈ r1.addrs, x < h1.next := by
    intro x hx
    rcases ad1 x hx with hx1 | hx1
    · exact Nat.lt_of_lt_of_le (hbd x (Shape.mem_addrs_node.mpr (Or.inr (Or.inr hx1)))) n1
    · exact hx1.2
  have hr1_d : d ∉ r1.addrs := by
    intro hm
    rcases ad1 d hm with hx1 | hx1
    · exact hddr hx1
    · exact Nat.lt_irrefl _ (Nat.lt_of_lt_of_le hdn hx1.1)
  have hl1_d : d ∉ l1.addrs := by
    intro hm
    rcases ad2 d hm with hx1 | hx1
    · exact hddl hx1
    · exact Nat.lt_irrefl _ (Nat.lt_of_lt_of_le (Nat.lt_of_lt_of_le hdn n1) hx1.1)
  have hl1_r1 : ∀ x ∈ l1.addrs, x ∉ r1.addrs := by
    intro x hx hm
    rcases ad2 x hx with hx1 | hx1
    · exact hr1_dl x hm hx1
    · exact Nat.lt_irrefl _ (Nat.lt_of_lt_of_le (hr1_lt x hm) hx1.1)
  have rep1' : Rep h2 (if dr.ptr.isSome then some d else none) r1 := Rep.frame rep1
    (fun x hx => fr2' x (hr1_dl x hx) (hr1_lt x hx) (fun e => hr1_d (e ▸ hx)))
  have hg2 : σ.get h2 root = Except.ok (some d) := by
    rw [Slot.get_frame (h := h1)]
    · exact hg1
    · intro e he
      exact fr2' e (hσdl e he) (Nat.lt_of_lt_of_le (hσ e he).2.2 n1) (hσd e he)
  -- the two closing statements
  obtain ⟨h3, e3, rep3, n3, fr3⟩ := Rep.reparent (some d) rep1' nd1
  have hd3 : h3.cells d = some ⟨v, l1.ptr, r1.ptr, pp⟩ := by
    rw [fr3 d (fun e => hr1_d (Shape.ptr_mem e))]; exact hd2
  have hg3 : σ.get h3 root = Except.ok (some d) := by
    rw [Slot.get_frame (h := h2)]
    · exact hg2
    · intro e he
      refine fr3 e (fun hp => ?_)
      rcases ad1 e (Shape.ptr_mem hp) with hx1 | hx1
      · exact hσdr e he hx1
      · exact Nat.lt_irrefl _ (Nat.lt_of_lt_of_le (hσ e he).2.2 hx1.1)
  have rep2' : Rep h3 (if dl.ptr.isSome then some d else none) l1 := Rep.frame rep2
    (fun x hx => fr3 x (fun e => hl1_r1 x hx (Shape.ptr_mem e)))
  obtain ⟨h4, e4, rep4, n4, fr4⟩ := Rep.reparent (some d) rep2' nd2
  have hd4 : h4.cells d = some ⟨v, l1.ptr, r1.ptr, pp⟩ := by
    rw [fr4 d (fun e => hl1_d (Shape.ptr_mem e))]; exact hd3
  have rep3' : Rep h4 (some d) r1 := Rep.frame rep3
    (fun x hx => fr4 x (fun e => hl1_r1 x (Shape.ptr_mem e) hx))
  have hle : h.next ≤ h4.next := by rw [n4, n3]; exact Nat.le_trans n1 n2
  refine ⟨h4, l1, r1, ?_, hle, ⟨hd4, rep4, rep3'⟩, same2, same1, ?_, ?_, ?_⟩
  · simp only [assignRest, hg, ok_bind, Slot.rightOf, pure_ok, Heap.read_some hsc, e1, hg1,
      Slot.leftOf, Heap.read_some hs1, e2, hg2, Heap.read_some hd2]
    by_cases c1 : r1.ptr.isSome = true
    · rw [if_pos c1] at e3 ⊢
      simp only [e3, ok_bind, hg3, Heap.read_some hd3]
      by_cases c2 : l1.ptr.isSome = true
      · rw [if_pos c2] at e4 ⊢
        simp only [e4, ok_bind]
      · rw [if_neg c2] at e4 ⊢
        simp only [pure_ok, Except.ok.injEq] at e4
        rw [e4]
    · rw [if_neg c1] at e3 ⊢
      simp only [pure_ok, Except.ok.injEq] at e3
      subst e3
      by_cases c2 : l1.ptr.isSome = true
      · rw [if_pos c2] at e4 ⊢
        simp only [e4, ok_bind]
      · rw [if_neg c2] at e4 ⊢
        simp only [pure_ok, Except.ok.injEq] at e4
        rw [e4]
  · simp only [Shape.addrs]
    rw [List.nodup_append]
    refine ⟨nd2, List.nodup_cons.mpr ⟨hr1_d, nd1⟩, ?_⟩
    intro x hx hm
    rcases List.mem_cons.mp hm with rfl | hm
    · exact hl1_d hx
    · exact hl1_r1 x hx hm
  · intro x hx
    rw [n4, n3]
    rcases Shape.mem_addrs_node.mp hx with hx | hx | hx
    · rcases ad2 x hx with hx1 | hx1
      · exact Or.inl (Shape.mem_addrs_node.mpr (Or.inl hx1))
      · exact Or.inr ⟨Nat.le_trans n1 hx1.1, hx1.2⟩
    · exact Or.inl (Shape.mem_addrs_node.mpr (Or.inr (Or.inl hx)))
    · rcases ad1 x hx with hx1 | hx1
      · exact Or.inl (Shape.mem_addrs_node.mpr (Or.inr (Or.inr hx1)))
      · exact Or.inr ⟨hx1.1, Nat.lt_of_lt_of_le hx1.2 n2⟩
  · intro x hx hxn
    have hx' := fun hm => hx (Shape.mem_addrs_node.mpr hm)
    have hxdl : x ∉ dl.addrs := fun hm => hx' (Or.inl hm)
    have hxd : x ≠ d := fun hm => hx' (Or.inr (Or.inl hm))
    have hxdr : x ∉ dr.addrs := fun hm => hx' (Or.inr (Or.inr hm))
    have hxr1 : x ∉ r1.addrs := by
      intro hm
      rcases ad1 x hm with hx1 | hx1
      · exact hxdr hx1
      · exact Nat.lt_irrefl _ (Nat.lt_of_lt_of_le hxn hx1.1)
    have hxl1 : x ∉ l1.addrs := by
      intro hm
      rcases ad2 x hm with hx1 | hx1
      · exact hxdl hx1
      · exact Nat.lt_irrefl _ (Nat.lt_of_lt_of_le (Nat.lt_of_lt_of_le hxn n1) hx1.1)
    rw [fr4 x (fun e => hxl1 (Shape.ptr_mem e)), fr3 x (fun e => hxr1 (Shape.ptr_mem e)),
      fr2' x hxdl (Nat.lt_of_lt_of_le hxn n1) hxd, fr1' x hxdr hxn hxd]

theorem Slot.Stored.get_eq {h h1 : Heap α} {root root1 v : Ptr} {σ : Slot}
    (hs : σ.Stored h root h1 root1 v) : σ.get h1 root1 = Except.ok v := by
  cases σ with
  | root => simp [Slot.get, show root1 = v from hs]
  | left a =>
    obtain ⟨_, n, _, e3⟩ := hs
    rw [Slot.get_left e3]
  | right a =>
    obtain ⟨_, n, _, e3⟩ := hs
    rw [Slot.get_right e3]

theorem Slot.Stored.later {h h1 h2 : Heap α} {root root1 v : Ptr} {σ : Slot}
    (hs : σ.Stored h root h1 root1 v) (hag : ∀ e, σ.node = some e → h2.cells e = h1.cells e) :
    σ.Stored h root h2 root1 v := by
  cases σ with
  | root => exact hs
  | left a =>
    obtain ⟨e1, n, e2, e3⟩ := hs
    exact ⟨e1, n, e2, by rw [hag a rfl]; exact e3⟩
  | right a =>
    obtain ⟨e1, n, e2, e3⟩ := hs
    exact ⟨e1, n, e2, by rw [hag a rfl]; exact e3⟩

/-- Function `_assign` meets its contract for every source shape and every fuel. -/
theorem _assign_rep : ∀ (src : Shape α) (parS : Ptr) (fuel : Nat),
    AssignSpec (_assign fuel) fuel src parS := by
  intro src
  induction src with
  | nil =>
    intro parS fuel dst parD h root σ _ hdst hnd _ _ _ hg hσ hf
    cases fuel with
    | zero => omega
    | succ f =>
      simp only [Shape.size] at hf
      obtain ⟨h1, root1, e1, e2, _, e4, e5⟩ := _clear_rep dst parD (f + 1) h root σ hdst hnd hg
        (fun e he => (hσ e he).1) (by omega)
      refine ⟨h1, root1, Shape.nil, ?_, by rw [e2], trivial, trivial, List.nodup_nil, ?_, ?_, e5⟩
      · simp only [Shape.ptr, _assign]; exact e1
      · intro x hx; simp [Shape.addrs] at hx
      · intro x hx _ hxσ; exact e4 x hx hxσ
  | node sl s v sr ihl ihr =>
    intro parS fuel dst parD h root σ hsrc hdst hnd hdis hbs hbd hg hσ hf
    cases fuel with
    | zero => omega
    | succ f =>
      have hsc : h.cells s = some ⟨v, sl.ptr, sr.ptr, parS⟩ := hsrc.1
      have hptr : (Shape.node sl s v sr).ptr = some s := rfl
      cases dst with
      | nil =>
        simp only [Shape.size] at hf
        -- pDest = new BNode(pSrc->data)
        let ha : Heap α :=
          ⟨fun x => if x = h.next then some ⟨v, none, none, none⟩ else h.cells x, h.next + 1⟩
        have hσn : ∀ e, σ.node = some e → e ≠ h.next :=
          fun e he => Nat.ne_of_lt (hσ e he).2.2
        have hlive : ∀ e, σ.node = some e → ∃ n, ha.cells e = some n := by
          intro e he
          obtain ⟨n, hn⟩ := Slot.get_live hg e he
          exact ⟨n, by simp only [ha, if_neg (hσn e he)]; exact hn⟩
        obtain ⟨hb, rootb, eb, nb, fb, sb⟩ :=
          Slot.set_spec ha root (some h.next) hlive
        have hbx : ∀ x, x < h.next → σ.node ≠ some x → hb.cells x = h.cells x := by
          intro x hx hxσ
          rw [fb x hxσ]
          simp only [ha, if_neg (Nat.ne_of_lt hx)]
        have hbn : hb.cells h.next = some ⟨v, none, none, none⟩ := by
          rw [fb h.next (fun e => hσn _ e rfl)]
          simp [ha]
        have hsrcb : Rep hb parS (Shape.node sl s v sr) := Rep.frame hsrc
          (fun x hx => hbx x (hbs x hx) (fun e => (hσ x e).2.1 hx))
        obtain ⟨h1, l1, r1, e1, n1, rep1, sameL, sameR, nd1, ad1, fr1⟩ :=
          assignRest_spec (_assign f) f sl sr s v parS (ihl (some s) f) (ihr (some s) f)
            Shape.nil Shape.nil h.next none hb rootb σ hsrcb hbn trivial trivial
            (by simp [Shape.addrs])
            (by intro x hx hm
                simp only [Shape.addrs, List.nil_append, List.mem_singleton] at hm
                exact Nat.lt_irrefl _ (hm ▸ hbs x hx))
            (by intro x hx; rw [nb]; exact Nat.lt_succ_of_lt (hbs x hx))
            (by intro x hx
                simp only [Shape.addrs, List.nil_append, List.mem_singleton] at hx
                rw [nb, hx]; exact Nat.lt_succ_self _)
            sb.get_eq
            (by intro e he
                refine ⟨?_, (hσ e he).2.1, ?_⟩
                · simp only [Shape.addrs, List.nil_append, List.mem_singleton]
                  exact hσn e he
                · rw [nb]; exact Nat.lt_succ_of_lt (hσ e he).2.2)
            (by simp only [Shape.size]; omega)
        have hnb : hb.next = h.next + 1 := nb
        refine ⟨h1, rootb, Shape.node l1 h.next v r1, ?_, by omega, rep1, ⟨rfl, sameL, sameR⟩,
          nd1, ?_, ?_, ?_⟩
        · simp only [hptr, _assign, hg, Shape.ptr, ok_bind, Heap.read_some hsc, Heap.alloc]
          show (do let (hb, rootb) ← σ.set ha root (some h.next)
                   assignRest (_assign f) hb rootb σ (some s)) = _
          simp only [eb, ok_bind, e1]
        · intro x hx
          right
          rcases ad1 x hx with hx1 | hx1
          · simp only [Shape.addrs, List.nil_append, List.mem_singleton] at hx1
            rw [hx1]; exact ⟨Nat.le_refl _, by omega⟩
          · exact ⟨by omega, hx1.2⟩
        · intro x _ hxn hxσ
          rw [fr1 x (by simp only [Shape.addrs, List.nil_append, List.mem_singleton]
                        exact Nat.ne_of_lt hxn) (by omega)]
          exact hbx x hxn hxσ
        · refine Slot.Stored.later (Slot.Stored.earlier sb ?_) ?_
          · intro e he
            simp only [ha, if_neg (hσn e he)]
          · intro e he
            exact fr1 e (by simp only [Shape.addrs, List.nil_append, List.mem_singleton]
                            exact hσn e he) (by rw [nb]; exact Nat.lt_succ_of_lt (hσ e he).2.2)
      | node dl d dv dr =>
        simp only [Shape.size] at hf
        obtain ⟨hdc, hdl, hdr⟩ := hdst
        have hdptr : (Shape.node dl d dv dr).ptr = some d := rfl
        have hdmem : d ∈ (Shape.node dl d dv dr).addrs :=
          Shape.mem_addrs_node.mpr (Or.inr (Or.inl rfl))
        obtain ⟨_, _, hddl, hddr, _⟩ := Shape.nodup_node hnd
        -- pDest->data = pSrc->data
        let hb : Heap α := h.store d ⟨v, dl.ptr, dr.ptr, parD⟩
        have hbx : ∀ x, x ≠ d → hb.cells x = h.cells x :=
          fun x hx => Heap.store_cells_other h _ hx
        have hσd : ∀ e, σ.node = some e → e ≠ d := fun e he hed => (hσ e he).1 (hed ▸ hdmem)
        have hgb : σ.get hb root = Except.ok (some d) := by
          rw [Slot.get_frame (h := h)]
          · exact hg
          · intro e he; exact hbx e (hσd e he)
        have hsrcb : Rep hb parS (Shape.node sl s v sr) := Rep.frame hsrc
          (fun x hx => hbx x (fun e => hdis x hx (e ▸ hdmem)))
        obtain ⟨h1, l1, r1, e1, n1, rep1, sameL, sameR, nd1, ad1, fr1⟩ :=
          assignRest_spec (_assign f) f sl sr s v parS (ihl (some s) f) (ihr (some s) f)
            dl dr d parD hb root σ hsrcb (by simp [hb])
            (Rep.frame hdl (fun x hx => hbx x (fun e => hddl (e ▸ hx))))
            (Rep.frame hdr (fun x hx => hbx x (fun e => hddr (e ▸ hx))))
            hnd hdis hbs hbd hgb hσ (by omega)
        refine ⟨h1, root, Shape.node l1 d v r1, ?_, n1, rep1, ⟨rfl, sameL, sameR⟩, nd1, ad1,
          ?_, ?_⟩
        · simp only [hptr, _assign, hg, hdptr, ok_bind, Heap.read_some hsc,
            Heap.modify_some hdc]
          exact e1
        · intro x hx hxn _
          rw [fr1 x hx hxn]
          exact hbx x (fun e => hx (e ▸ hdmem))
        · refine Slot.Stored.later (Slot.Stored.of_get hg) ?_
          intro e he
          rw [fr1 e (hσ e he).1 (hσ e he).2.2]
          exact hbx e (hσd e he)

/-- Two disjoint sets of distinct addresses below the allocation frontier. -/
theorem Shape.size_add_le_next (s d : Shape α) (n : Nat) (hs : s.addrs.Nodup)
    (hd : d.addrs.Nodup) (hdis : ∀ x ∈ s.addrs, x ∉ d.addrs) (hbs : ∀ x ∈ s.addrs, x < n)
    (hbd : ∀ x ∈ d.addrs, x < n) : s.size + d.size ≤ n := by
  have hnd : (s.addrs ++ d.addrs).Nodup :=
    List.nodup_append.mpr ⟨hs, hd, fun x hx hm => hdis x hx hm⟩
  have hsub : (s.addrs ++ d.addrs) ⊆ List.range n := by
    intro x hx
    rcases List.mem_append.mp hx with hx | hx
    · exact List.mem_range.mpr (hbs x hx)
    · exact List.mem_range.mpr (hbd x hx)
  have := (hnd.subperm hsub).length_le
  simpa [Shape.length_addrs] using this

/-- The copy assignment on a well-formed source and a destination tree held by the same
heap apart from the source: it returns, the destination is a well-formed tree of the same
form and values as the source with the count of the source, and the source is untouched.
The count of the destination object before the call plays no part. -/
theorem BST.assign_spec {h : Heap α} {a : BST} {sa : Shape α} (b : BST) (sb : Shape α)
    (hwa : WellFormed h a sa)
    (hroot : b.root = sb.ptr) (hrep : Rep h none sb) (hnd : sb.addrs.Nodup)
    (hbd : ∀ x ∈ sb.addrs, x < h.next) (hdis : ∀ x ∈ sa.addrs, x ∉ sb.addrs) :
    ∃ h1 b1 s1, BST.assign h b a = Except.ok (h1, b1) ∧ WellFormed h1 b1 s1 ∧
      Shape.Same sa s1 ∧ s1.inorder = sa.inorder ∧ b1.size = a.size ∧
      WellFormed h1 a sa ∧ ∀ x ∈ sa.addrs, h1.cells x = h.cells x := by
  obtain ⟨haroot, harep, hand, hab, hacount⟩ := hwa
  have hfuel : sa.size + sb.size + 1 ≤ h.fuel :=
    Nat.succ_le_succ (Shape.size_add_le_next sa sb h.next hand hnd hdis hab hbd)
  obtain ⟨h1, root1, s1, e1, n1, rep1, same1, nd1, ad1, fr1, st1⟩ :=
    _assign_rep sa none h.fuel sb none h b.root Slot.root harep hrep hnd hdis hab hbd
      (by rw [hroot]; rfl) (by intro e he; simp [Slot.node] at he) hfuel
  have hr1 : root1 = s1.ptr := st1
  have hfr : ∀ x ∈ sa.addrs, h1.cells x = h.cells x :=
    fun x hx => fr1 x (hdis x hx) (hab x hx) (by simp [Slot.node])
  refine ⟨h1, ⟨root1, a.numElements⟩, s1, ?_, ⟨hr1, ?_, nd1, ?_, ?_⟩, same1, same1.inorder_eq,
    rfl, ⟨haroot, Rep.frame harep hfr, hand, fun x hx => Nat.lt_of_lt_of_le (hab x hx) n1,
      hacount⟩, hfr⟩
  · simp only [BST.assign, haroot, e1, ok_bind, pure_ok]
  · simpa using rep1
  · intro x hx
    rcases ad1 x hx with hx1 | hx1
    · exact Nat.lt_of_lt_of_le (hbd x hx1) n1
    · exact hx1.2
  · show a.numElements = s1.size
    rw [same1.size_eq, hacount]

/-- C12: the copy assignment `B = A` for well-formed trees `A` and `B` on disjoint nodes
(whatever the form of `B`) returns; `B` is then a well-formed tree with the same form and the
same value at every position as `A`, hence the same in-order sequence, and
`B.size() == A.size()`; `A` and its nodes are unchanged.  The copy constructor gives the
same from a fresh object. -/
theorem copy_assign_contract (h : Heap α) (a b : BST) (sa sb : Shape α)
    (hwa : WellFormed h a sa) (hwb : WellFormed h b sb) (hdis : ∀ x ∈ sa.addrs, x ∉ sb.addrs) :
    (∃ h1 b1 s1, BST.assign h b a = Except.ok (h1, b1) ∧ WellFormed h1 b1 s1 ∧
      Shape.Same sa s1 ∧ s1.inorder = sa.inorder ∧ b1.size = a.size ∧
      WellFormed h1 a sa ∧ ∀ x ∈ sa.addrs, h1.cells x = h.cells x) ∧
    (∃ h1 b1 s1, BST.copy h a = Except.ok (h1, b1) ∧ WellFormed h1 b1 s1 ∧
      Shape.Same sa s1 ∧ s1.inorder = sa.inorder ∧ b1.size = a.size ∧
      WellFormed h1 a sa ∧ ∀ x ∈ sa.addrs, h1.cells x = h.cells x) :=
  ⟨BST.assign_spec b sb hwa hwb.root hwb.rep hwb.nodup hwb.bound hdis,
   BST.assign_spec ⟨none, a.numElements⟩ Shape.nil hwa rfl trivial
     List.nodup_nil (by simp [Shape.addrs]) (by simp [Shape.addrs])⟩

/-- Instance of C12: assigning the tree 5, 3 to the tree 7 in `heapTwo`. -/
theorem copy_assign_contract_witness :
    WellFormed heapTwo tree53 shape53 ∧ WellFormed heapTwo tree7 shape7 ∧
    (∀ x ∈ shape53.addrs, x ∉ shape7.addrs) ∧
    (∃ h1 b1 s1, BST.assign heapTwo tree7 tree53 = Except.ok (h1, b1) ∧ WellFormed h1 b1 s1 ∧
      Shape.Same shape53 s1 ∧ s1.inorder = shape53.inorder ∧ b1.size = tree53.size ∧
      WellFormed h1 tree53 shape53 ∧ ∀ x ∈ shape53.addrs, h1.cells x = heapTwo.cells x) ∧
    (∃ h1 b1 s1, BST.copy heapTwo tree53 = Except.ok (h1, b1) ∧ WellFormed h1 b1 s1 ∧
      Shape.Same shape53 s1 ∧ s1.inorder = shape53.inorder ∧ b1.size = tree53.size ∧
      WellFormed h1 tree53 shape53 ∧ ∀ x ∈ shape53.addrs, h1.cells x = heapTwo.cells x) :=
  ⟨wfTwo53, wfTwo7, by decide,
    copy_assign_contract heapTwo tree53 tree7 shape53 shape7 wfTwo53 wfTwo7 (by decide)⟩

/-! ## operator--, operator!=, erase of the last element, back-links -/

/-- C21 (defects of `operator--`): the descent loop tests `pLeft` but steps to `pRight`,
and the parent is read without a null check.  In the tree built from 5, 3, 4 the iterator
at 4 moves to 5 under `++`, and `--` from there stops at 3, not at 4.  In the tree built
from 5, 3, 2, `--` at 5 dereferences a null pointer in the loop.  In the tree built from 5
alone, `--` at the first node, the root, dereferences its null parent. -/
theorem decrement_defects :
    (∃ h b it it1, BST.insertAll (Heap.empty : Heap Nat) BST.mk0 [(5, true), (3, true), (4, true)]
        = Except.ok (h, b) ∧
      b.find h 4 = Except.ok it ∧ it.pNode = some 2 ∧ iterator.incr h it = Except.ok it1 ∧
      it1.pNode = some 0 ∧ iterator.decr h it1 = Except.ok ⟨some 1⟩ ∧
      h.cells 1 = some ⟨3, none, some 2, some 0⟩) ∧
    (∃ h b it, BST.insertAll (Heap.empty : Heap Nat) BST.mk0 [(5, true), (3, true), (2, true)]
        = Except.ok (h, b) ∧
      b.find h 5 = Except.ok it ∧ iterator.decr h it = Except.error Fault.nullDeref) ∧
    (∃ h b it, BST.insertAll (Heap.empty : Heap Nat) BST.mk0 [(5, true)] = Except.ok (h, b) ∧
      b.begin h = Except.ok it ∧ it.pNode = b.root ∧
      iterator.decr h it = Except.error Fault.nullDeref) :=
  ⟨⟨_, _, _, _, rfl, rfl, rfl, rfl, rfl, rfl, rfl⟩, ⟨_, _, _, rfl, rfl, rfl⟩,
    ⟨_, _, _, rfl, rfl, rfl, rfl⟩⟩

/-- When the left operand references a node, `operator!=` is the negation of
`operator==`. -/
theorem iterator.ne_eq_not_eq_of_node (a : Nat) (b : iterator) :
    iterator.ne ⟨some a⟩ b = !iterator.eq ⟨some a⟩ b := by
  simp [iterator.ne, iterator.eq]

/-- C23 (the defect of C16 seen from `operator!=`): for the past-the-end iterator on
the left and an iterator at a node on the right both `!=` and `==` hold, so `!=` is not
the negation of `==`. -/
theorem iterator_ne_and_eq_both_hold (a : Nat) :
    iterator.ne BST.endIt ⟨some a⟩ = true ∧ iterator.eq BST.endIt ⟨some a⟩ = true ∧
      iterator.ne BST.endIt ⟨some a⟩ ≠ !iterator.eq BST.endIt ⟨some a⟩ := by
  simp [iterator.ne, iterator.eq, BST.endIt]

/-- C24 (defect of `erase`, root that is a leaf): in every well-formed tree with exactly
one node, `erase` of that node returns and `size()` becomes 0, but `root` still holds the
address of the deleted node, and a following `insert(t, keepUnique)` reads the deleted
node instead of making `t` the root. -/
theorem erase_last_element_leaves_root [LinearOrder α] (h : Heap α) (b : BST) (a : Nat)
    (v t : α) (k : Bool) (hwf : WellFormed h b (Shape.node Shape.nil a v Shape.nil)) :
    ∃ h1 b1, b.erase h ⟨some a⟩ = Except.ok (h1, b1, ⟨none⟩) ∧ b1.size = 0 ∧
      b1.root = some a ∧ h1.cells a = none ∧
      b1.insert h1 t k = Except.error Fault.danglingDeref := by
  obtain ⟨hroot, hrep, _, _, hcount⟩ := hwf
  have hc : h.cells a = some ⟨v, none, none, none⟩ := hrep.1
  have hnum : b.numElements = 1 := by rw [hcount]; simp [Shape.size]
  refine ⟨⟨fun x => if x = a then none else h.cells x, h.next⟩,
    ⟨b.root, sizeDecr b.numElements⟩, ?_, ?_, hroot, by simp, ?_⟩
  · simp [BST.erase, Heap.read_some hc, BST.eraseCase1, BNode.isRightChild, BNode.isLeftChild,
      Heap.free, hc]
  · simp [BST.size, hnum, sizeDecr]
  · have hr : b.root = some a := hroot
    simp [BST.insert, hr, Heap.fuel, _insert, Heap.read]

/-- Instance of C24: the tree built from 5 alone, then `insert(7, false)`. -/
theorem erase_last_element_leaves_root_witness :
    WellFormed heap5 tree5 (Shape.node Shape.nil 0 5 Shape.nil) ∧
    ∃ h1 b1, tree5.erase heap5 ⟨some 0⟩ = Except.ok (h1, b1, ⟨none⟩) ∧ b1.size = 0 ∧
      b1.root = some 0 ∧ h1.cells 0 = none ∧
      b1.insert h1 7 false = Except.error Fault.danglingDeref :=
  ⟨⟨rfl, ⟨rfl, trivial, trivial⟩, by decide, by simp [Shape.addrs, heap5], rfl⟩,
   erase_last_element_leaves_root heap5 tree5 0 5 7 false
     ⟨rfl, ⟨rfl, trivial, trivial⟩, by decide, by simp [Shape.addrs, heap5], rfl⟩⟩

/-- The root node of a held shape is a live cell with the parent the shape is held
below. -/
theorem Rep.root_cell {h : Heap α} {s : Shape α} {par : Ptr} {c : Nat} (hrep : Rep h par s)
    (hc : s.ptr = some c) : ∃ m, h.cells c = some m ∧ m.pParent = par := by
  cases s with
  | nil => simp [Shape.ptr] at hc
  | node l p v r =>
    simp only [Shape.ptr, Option.some.injEq] at hc
    subst hc
    exact ⟨_, hrep.1, rfl⟩

/-- In a held shape every present child of a node is a live node whose `pParent` is the
node that holds it. -/
theorem Rep.children {h : Heap α} : ∀ (s : Shape α) (par : Ptr), Rep h par s →
    ∀ a ∈ s.addrs, ∃ n, h.cells a = some n ∧
      (∀ c, n.pLeft = some c → ∃ m, h.cells c = some m ∧ m.pParent = some a) ∧
      (∀ c, n.pRight = some c → ∃ m, h.cells c = some m ∧ m.pParent = some a) := by
  intro s
  induction s with
  | nil => intro par _ a ha; simp [Shape.addrs] at ha
  | node l p v r ihl ihr =>
    intro par hrep a ha
    obtain ⟨hc, hl, hr⟩ := hrep
    rcases Shape.mem_addrs_node.mp ha with ha | ha | ha
    · exact ihl _ hl a ha
    · subst ha
      exact ⟨_, hc, fun c hcl => Rep.root_cell hl hcl, fun c hcr => Rep.root_cell hr hcr⟩
    · exact ihr _ hr a ha

/-- A well-formed tree is back-link consistent. -/
theorem WellFormed.backLinked {h : Heap α} {b : BST} {s : Shape α} (hwf : WellFormed h b s) :
    BackLinked h b.root s.addrs :=
  ⟨fun r hr => Rep.root_cell hwf.rep (by rw [← hwf.root]; exact hr),
   Rep.children s none hwf.rep⟩

/-- C22: back-link consistency is preserved by `insert` with either flag, and it is
established in the destination by the copy assignment `B = A` for every well-formed `A`
and every well-formed `B` on other nodes: in both results the root has no parent and
every present child, reused or newly allocated, has the node that holds it as `pParent`. -/
theorem back_links_contract [LinearOrder α] (h : Heap α) (a b : BST) (sa sb : Shape α)
    (t : α) (k : Bool) (hwa : WellFormed h a sa) (hwb : WellFormed h b sb)
    (hdis : ∀ x ∈ sa.addrs, x ∉ sb.addrs) :
    (∃ h1 b1 it inserted s1, b.insert h t k = Except.ok (h1, b1, it, inserted) ∧
      WellFormed h1 b1 s1 ∧ BackLinked h1 b1.root s1.addrs) ∧
    (∃ h1 b1 s1, BST.assign h b a = Except.ok (h1, b1) ∧ WellFormed h1 b1 s1 ∧
      Shape.Same sa s1 ∧ BackLinked h1 b1.root s1.addrs) := by
  constructor
  · obtain ⟨h1, b1, e1, e2, _⟩ := BST.insert_spec t k hwb
    exact ⟨h1, b1, _, _, _, e1, e2, e2.backLinked⟩
  · obtain ⟨h1, b1, s1, e1, e2, e3, _⟩ :=
      BST.assign_spec b sb hwa hwb.root hwb.rep hwb.nodup hwb.bound hdis
    exact ⟨h1, b1, s1, e1, e2, e3, e2.backLinked⟩

/-- Instance of C22: inserting 1 into the tree 7 of `heapTwo`, and assigning the tree
5, 3 to it. -/
theorem back_links_contract_witness :
    WellFormed heapTwo tree53 shape53 ∧ WellFormed heapTwo tree7 shape7 ∧
    (∀ x ∈ shape53.addrs, x ∉ shape7.addrs) ∧
    (∃ h1 b1 it inserted s1, tree7.insert heapTwo 1 true = Except.ok (h1, b1, it, inserted) ∧
      WellFormed h1 b1 s1 ∧ BackLinked h1 b1.root s1.addrs) ∧
    (∃ h1 b1 s1, BST.assign heapTwo tree7 tree53 = Except.ok (h1, b1) ∧ WellFormed h1 b1 s1 ∧
      Shape.Same shape53 s1 ∧ BackLinked h1 b1.root s1.addrs) :=
  ⟨wfTwo53, wfTwo7, by decide,
    back_links_contract heapTwo tree53 tree7 shape53 shape7 1 true wfTwo53 wfTwo7 (by decide)⟩


end custom
